import Mathlib

/-!
Verification of the dependency-ordered text/code generator `prepare.py`.

The development shallowly embeds the program's core: the scheduler
(`reverse_topological_sort`, `find_cycles`), the dependency graph builder
(`Project.process`, `AbstractUnit.analyze_references`), the evaluation and
emission engine (`CodeBlock.evaluate`, `TemplateCodeBlock.evaluate`), the
fragment analyzer (`CodeBlock.analyze_symbols`) and the deployer
(`TemplateUnit.evaluate` / `TemplateUnit.deploy`).

Python dictionaries are modelled as association lists or as total functions
(the program only ever reads keys it has registered), Python sets as
insertion-ordered duplicate-free lists, and the unbounded recursions of the
source as fuelled structural recursions with provably sufficient fuel.
Python unit objects (compared by identity) are represented by their index
in the project's unit list.
-/

section Scheduler

variable {V : Type} [DecidableEq V]

/-- Embeds `get_out_degree` (prepare.py lines 376–381): the number of edges
`(head, tail)` whose head is the given vertex. -/
def outDegree (edges : List (V × V)) (v : V) : Nat :=
  (edges.filter (fun e => decide (e.1 = v))).length

/-- Embeds `get_in_edges` (prepare.py lines 383–389): the edges whose tail is
the given vertex. -/
def inEdges (edges : List (V × V)) (v : V) : List (V × V) :=
  edges.filter (fun e => decide (e.2 = v))

/-- Embeds the inner `for edge in get_in_edges(vertex)` loop of
`reverse_topological_sort` (prepare.py lines 407–411): decrement the recorded
out-degree of each edge's head, enqueueing the head when its count reaches
zero.  The Python `out_degrees` dict is modelled as a total function `V → Int`
(the program only decrements keys it has registered). -/
def processEdges : List (V × V) → (V → Int) × List V → (V → Int) × List V
  | [], s => s
  | e :: rest, (deg, queue) =>
    let d := deg e.1 - 1
    let deg2 : V → Int := fun x => if x = e.1 then d else deg x
    if d = 0 then processEdges rest (deg2, queue ++ [e.1])
    else processEdges rest (deg2, queue)

/-- Embeds the `while queue` loop of `reverse_topological_sort`
(prepare.py lines 403–411).  The fuel argument only bounds the number of
iterations; it is chosen large enough (`vertices.length + edges.length`)
that it never runs out on the inputs the theorems consider. -/
def sortLoop (edges : List (V × V)) : Nat → List V → (V → Int) → List V → List V
  | 0, _, _, acc => acc
  | fuel + 1, queue, deg, acc =>
    match queue with
    | [] => acc
    | v :: rest =>
      let s := processEdges (inEdges edges v) (deg, rest)
      sortLoop edges fuel s.2 s.1 (acc ++ [v])

/-- Embeds `" -> ".join([unit.sourcename for unit in list])`
(prepare.py line 432). -/
def cyclePath (names : V → String) (l : List V) : String :=
  String.intercalate " -> " (l.map names)

/-- Embeds `cycles.add(...)` (prepare.py line 432): `cycles` is a Python set
of strings, modelled as an insertion-ordered duplicate-free list. -/
def addCycle (cycles : List String) (s : String) : List String :=
  if s ∈ cycles then cycles else cycles ++ [s]

/-- Embeds the `for head, tail in edges` loop of `find_cycle`
(prepare.py lines 427–434), parametrised by the recursive call `recurse`
taken at the current depth. -/
def findCycleIter (names : V → String) (recurse : List V → V → List String → List String) :
    List (V × V) → List V → V → List String → List String
  | [], _, _, cycles => cycles
  | e :: rest, seen, vertex, cycles =>
    if e.1 = vertex then
      let l := seen ++ [e.2]
      if e.2 ∈ seen then
        findCycleIter names recurse rest seen vertex (addCycle cycles (cyclePath names l))
      else
        findCycleIter names recurse rest seen vertex (recurse l e.2 cycles)
    else
      findCycleIter names recurse rest seen vertex cycles

/-- Embeds `find_cycle` (prepare.py lines 426–434).  The Python recursion is
unbounded but its depth is at most the number of edges (each recursive call
extends `seen` by a vertex not yet in it); the fuel makes that bound explicit. -/
def findCycle (names : V → String) (alledges : List (V × V)) :
    Nat → List V → V → List String → List String
  | 0, _, _, cycles => cycles
  | fuel + 1, seen, vertex, cycles =>
    findCycleIter names (fun l t c => findCycle names alledges fuel l t c)
      alledges seen vertex cycles

/-- Embeds `find_cycles` (prepare.py lines 418–424): run the depth-first cycle
search from every vertex and return the accumulated cycle strings sorted
lexicographically (`list(sorted(cycles))`). -/
def findCycles (names : V → String) (vertices : List V) (edges : List (V × V)) : List String :=
  List.insertionSort (· ≤ ·)
    (vertices.foldl (fun cycles v => findCycle names edges (edges.length + 1) [v] v cycles) [])

/-- Embeds the message of the exception raised at prepare.py line 414:
`"\n\t".join(["Cyclic dependencies:"] + find_cycles(vertices, edges))`. -/
def cyclicMessage (names : V → String) (vertices : List V) (edges : List (V × V)) : String :=
  String.intercalate "\n\t" ("Cyclic dependencies:" :: findCycles names vertices edges)

/-- The `list` built by the loop of `reverse_topological_sort` (prepare.py
lines 391–411): vertices with no unresolved prerequisites (out-degree zero)
are queued first, then the queue is drained by `sortLoop`. -/
def sortRun (vertices : List V) (edges : List (V × V)) : List V :=
  sortLoop edges (vertices.length + edges.length)
    (vertices.filter (fun v => decide (outDegree edges v = 0)))
    (fun v => (outDegree edges v : Int)) []

/-- Embeds `reverse_topological_sort` (prepare.py lines 375–416).  If not
every vertex was scheduled by the loop, the cyclic-dependencies exception is
raised (modelled as `Except.error` carrying the exception's message). -/
def reverse_topological_sort (names : V → String) (vertices : List V)
    (edges : List (V × V)) : Except String (List V) :=
  if (sortRun vertices edges).length ≠ vertices.length then
    .error (cyclicMessage names vertices edges)
  else
    .ok (sortRun vertices edges)

/-- The dependency relation induced by an edge list: `edgeRel edges a b` holds
when `(a, b)` is an edge, i.e. unit `a` depends on (must run after) unit `b`. -/
def edgeRel (edges : List (V × V)) : V → V → Prop :=
  fun a b => (a, b) ∈ edges

/-- A project's derived edge set is acyclic when no unit transitively depends
on itself. -/
def Acyclic (edges : List (V × V)) : Prop :=
  ∀ v : V, ¬ Relation.TransGen (edgeRel edges) v v

/-- The number of edges out of `v` whose prerequisite has already been
scheduled into `acc` — the amount by which the loop has decremented `v`'s
out-degree counter so far. -/
def doneCount (edges : List (V × V)) (acc : List V) (v : V) : Nat :=
  (edges.filter (fun e => decide (e.1 = v) && decide (e.2 ∈ acc))).length

/-- The invariant the `while queue` loop of `reverse_topological_sort`
maintains: scheduled and queued vertices are distinct project vertices; every
counter holds the out-degree minus the decrements received; queued vertices
have counter zero, scheduled ones at most zero, all remaining ones nonzero;
and the scheduled list already respects every edge whose head it contains. -/
def SortInv (vertices : List V) (edges : List (V × V)) (queue : List V) (deg : V → Int)
    (acc : List V) : Prop :=
  (acc ++ queue).Nodup ∧
  (∀ x ∈ acc ++ queue, x ∈ vertices) ∧
  (∀ x, deg x = (outDegree edges x : Int) - (doneCount edges acc x : Int)) ∧
  (∀ x ∈ queue, deg x = 0) ∧
  (∀ x ∈ acc, deg x ≤ 0) ∧
  (∀ x ∈ vertices, x ∉ acc → x ∉ queue → deg x ≠ 0) ∧
  (∀ e ∈ edges, e.1 ∈ acc → [e.2, e.1].Sublist acc)

end Scheduler

section Emission

/-- Embeds the Python truthiness test `if delim` of prepare.py line 351:
`None` and the empty string are falsy. -/
def delimTruthy : Option String → Bool
  | none => false
  | some s => decide (s ≠ "")

/-- Embeds one iteration of the flush loop of `TemplateCodeBlock.evaluate`
(prepare.py lines 347–357) for the buffered entry `t = (line, delim, newline)`
at position `i` of `n` buffered lines: every line but the first is prefixed
with the block's indent, every line but the last gets its delimiter (when
truthy) and a terminating newline (when `newline` holds). -/
def renderLine (indent : String) (n : Nat) (i : Nat) (t : String × Option String × Bool) :
    String :=
  let line := if 0 < i then indent ++ t.1 else t.1
  let line := if delimTruthy t.2.1 && decide (i < n - 1) then line ++ t.2.1.getD "" else line
  if t.2.2 && decide (i < n - 1) then line ++ "\n" else line

/-- The flush loop of `TemplateCodeBlock.evaluate` (prepare.py lines 347–357),
carrying the running index of `enumerate(lines)`. -/
def flushLinesGo (indent : String) (n : Nat) : Nat → List (String × Option String × Bool) → String
  | _, [] => ""
  | i, t :: rest => renderLine indent n i t ++ flushLinesGo indent n (i + 1) rest

/-- Embeds the output produced by the flush loop of `TemplateCodeBlock.evaluate`
(prepare.py lines 347–357): the concatenation of the rendered buffered lines,
in order, as printed to the output file. -/
def flushLines (indent : String) (lines : List (String × Option String × Bool)) : String :=
  flushLinesGo indent lines.length 0 lines

/-- Embeds `re.sub(r"[^\t]", " ", text[:i])` (prepare.py line 164): the
indent recorded for a fragment is the text preceding its opening marker with
every non-tab character replaced by a space. -/
def normalizeIndent (s : String) : String :=
  String.mk (s.data.map (fun c => if c = '\t' then c else ' '))

end Emission

section AssocList

variable {α β : Type} [DecidableEq α]

/-- Python dict lookup on an insertion-ordered association list. -/
def assocGet (l : List (α × β)) (k : α) : Option β :=
  (l.find? (fun p => decide (p.1 = k))).map (fun p => p.2)

/-- Python dict key-membership test `k in d`. -/
def hasKey (l : List (α × β)) (k : α) : Bool :=
  l.any (fun p => decide (p.1 = k))

/-- Python dict assignment `d[k] = v`: replace in place, or append a new key. -/
def assocSet (l : List (α × β)) (k : α) (v : β) : List (α × β) :=
  if hasKey l k then l.map (fun p => if p.1 = k then (k, v) else p)
  else l ++ [(k, v)]

/-- Removal of a key (`os.remove`, `del`). -/
def assocRemove (l : List (α × β)) (k : α) : List (α × β) :=
  l.filter (fun p => !decide (p.1 = k))

end AssocList

section Evaluation

/-- Runtime values living in the evaluation environment.  The Python objects
themselves are opaque to this development; only the distinguished `_echo`
closure and the `producer`/`consumer` decorator lambdas are given dedicated
constructors, all other values are abstracted as numbered objects. -/
inductive PyVal where
  | echoFn
  | decoratorFn (name : String)
  | obj (n : Nat)
deriving DecidableEq, Repr

/-- A Python dict from names to values, as an insertion-ordered association
list (assignment replaces in place, new keys are appended). -/
abbrev Env := List (String × PyVal)

/-- Dict assignment `d[name] = v`. -/
def envSet (env : Env) (name : String) (v : PyVal) : Env :=
  assocSet env name v

/-- Dict lookup `d.get(name)`. -/
def envGet (env : Env) (name : String) : Option PyVal :=
  assocGet env name

/-- Embeds the `localdict` seed of `CodeBlock.evaluate` (prepare.py lines
314–317): the two recognised decorator names bound to identity lambdas. -/
def initialLocals : Env :=
  [("producer", PyVal.decoratorFn "producer"), ("consumer", PyVal.decoratorFn "consumer")]

/-- Embeds `CodeBlock.evaluate` (prepare.py lines 313–323).  The Python
`exec` of the fragment is the host interpreter and is not modelled:
`localsAfterExec` stands for the contents of `localdict` after the `exec`
call (which starts from the `producer`/`consumer` seeds of `initialLocals`
and is mutated by the fragment's statements).  The function performs the
copy-back loop of lines 321–323: every local binding whose name is among the
block's declared names is written into the shared `globaldict`; all other
locals are dropped. -/
def codeBlockEvaluate (declnames : List String) (localsAfterExec : List (String × PyVal))
    (globaldict : Env) : Env :=
  localsAfterExec.foldl (fun g p => if p.1 ∈ declnames then envSet g p.1 p.2 else g) globaldict

/-- Embeds `TemplateCodeBlock.evaluate` (prepare.py lines 332–357).  Before
executing the fragment it installs the `_echo` emission closure into the
shared `globaldict` (line 338); `emitted` stands for the `lines` buffer
filled by the fragment's `_echo` calls during the unmodelled `exec`; after
the copy-back of `CodeBlock.evaluate` the buffered lines are flushed to the
output file. -/
def templateCodeBlockEvaluate (declnames : List String) (indent : String)
    (localsAfterExec : List (String × PyVal))
    (emitted : List (String × Option String × Bool)) (globaldict : Env) : Env × String :=
  let g1 := envSet globaldict "_echo" PyVal.echoFn
  let g2 := codeBlockEvaluate declnames localsAfterExec g1
  (g2, flushLines indent emitted)

end Evaluation

section Deployment

/-- A file on disk: its content together with a stamp recording the moment it
was (re)written, standing for the file's identity and modification time. -/
structure FileRec where
  stamp : Nat
  content : String
deriving DecidableEq, Repr

/-- The file system: a logical clock and the files, keyed by path. -/
structure FS where
  clock : Nat
  files : List (String × FileRec)
deriving DecidableEq, Repr

/-- Read a path's file record, if the path exists. -/
def fsLookup (fs : FS) (path : String) : Option FileRec :=
  assocGet fs.files path

/-- Writing a file gives it fresh content and a fresh stamp. -/
def fsWrite (fs : FS) (path : String) (content : String) : FS :=
  { clock := fs.clock + 1, files := assocSet fs.files path ⟨fs.clock, content⟩ }

/-- `os.remove`: drop the path's entry. -/
def fsRemove (fs : FS) (path : String) : FS :=
  { fs with files := assocRemove fs.files path }

/-- `os.rename(src, dst)`: `dst` takes over `src`'s file record (content and
identity), `src` disappears. -/
def fsRename (fs : FS) (src dst : String) : FS :=
  match fsLookup fs src with
  | none => fs
  | some r => { fs with files := assocSet (fsRemove fs src).files dst r }

/-- Embeds `TemplateUnit.deploy` (prepare.py lines 193–209): if the target
exists, compare its content with the temporary file's content; on a
difference (or a missing target) rename the temporary file over the target
and report a change, otherwise remove the temporary file and report no
change. -/
def deploy (targetname : String) (fs : FS) (tempname : String) : FS × Bool :=
  let changed :=
    match fsLookup fs targetname with
    | some old =>
      match fsLookup fs tempname with
      | some newf => decide (newf.content ≠ old.content)
      | none => true
    | none => true
  if changed then (fsRename fs tempname targetname, true)
  else (fsRemove fs tempname, false)

/-- Embeds the deployment path of `TemplateUnit.evaluate` (prepare.py lines
173–191): the complete generated output is written to `targetname + ".tmp"`
and, the write having succeeded, `deploy` decides between replacing the
target and discarding the temporary file.  The block evaluation producing
`output` and the `makedirs` call are outside this model. -/
def evaluateDeploy (targetname : String) (output : String) (fs : FS) : FS × Bool :=
  let tempname := targetname ++ ".tmp"
  let fs1 := fsWrite fs tempname output
  deploy targetname fs1 tempname

end Deployment

section DataModel

/-- Embeds the `Symbol'` class (prepare.py lines 359–367).  The owning unit is
identified by its index in the project's unit list (Python compares unit
objects by identity).  `Symbol'.__init__` asserts that a symbol is not both
producer and consumer; the theorems below carry that fact as a hypothesis
where it matters. -/
structure Symbol' where
  name : String
  unit : Nat
  producer : Bool := false
  consumer : Bool := false
deriving DecidableEq, Repr

/-- A parsed unit as `Project.process` (prepare.py lines 42–73) sees it after
the `unit.parse()` calls: its source path, its declared symbols (`declsyms`,
a Python set of identity-compared `Symbol'` objects, so duplicates of the same
name can coexist — modelled as a list keeping multiplicity) and its referenced
names (`refnames`, a set of strings). -/
structure SourceUnit where
  sourcename : String
  declsyms : List Symbol'
  refnames : List String
deriving DecidableEq, Repr

/-- The fatal errors of the processing pipeline: the `assert` of prepare.py
line 50 (duplicate symbol name), the `KeyError` a lookup `symbolmap[name]`
raises for an undeclared name (lines 62 and 121), and the cyclic-dependencies
exception of line 414. -/
inductive PrepError where
  | duplicateSymbol (name : String)
  | unresolvedSymbol (name : String)
  | cyclicDependency (message : String)
deriving DecidableEq, Repr

/-- The project-wide symbol table, keyed by symbol name. -/
abbrev SymbolMap := List (String × Symbol')

/-- `symbolmap[name]`, as an optional lookup. -/
def lookupSym (m : SymbolMap) (name : String) : Option Symbol' :=
  assocGet m name

/-- One step of the symbol-table aggregation loop of `Project.process`
(prepare.py lines 48–51): `assert symbol.name not in symbolmap` then
`symbolmap[symbol.name] = symbol`. -/
def insertSymbol (m : SymbolMap) (s : Symbol') : Except PrepError SymbolMap :=
  if hasKey m s.name then .error (.duplicateSymbol s.name)
  else .ok (m ++ [(s.name, s)])

/-- The inner `for symbol in unit.declsyms` loop of prepare.py lines 49–51. -/
def insertSymbols (m : SymbolMap) : List Symbol' → Except PrepError SymbolMap
  | [] => .ok m
  | s :: rest =>
    match insertSymbol m s with
    | .error e => .error e
    | .ok m2 => insertSymbols m2 rest

/-- The symbol-table aggregation of `Project.process` (prepare.py lines
46–51), over all units in order. -/
def buildSymbolMapAux : List SourceUnit → SymbolMap → Except PrepError SymbolMap
  | [], m => .ok m
  | u :: rest, m =>
    match insertSymbols m u.declsyms with
    | .error e => .error e
    | .ok m2 => buildSymbolMapAux rest m2

/-- Embeds prepare.py lines 46–51: build the project-wide symbol table,
failing on the first name collision. -/
def buildSymbolMap (units : List SourceUnit) : Except PrepError SymbolMap :=
  buildSymbolMapAux units []

/-- Embeds the `Data` class (prepare.py lines 369–373): the producer and
consumer participant sets of one data channel, as insertion-ordered
duplicate-free lists of unit indices. -/
structure ChannelData where
  consumers : List Nat := []
  producers : List Nat := []
deriving DecidableEq, Repr

/-- The `datamap` dict of `Project.process`, keyed by the channel-owning
unit's index. -/
abbrev DataMap := List (Nat × ChannelData)

/-- `get_data` (prepare.py lines 112–118): the owning unit's channel record,
created empty on demand. -/
def dmGet (dm : DataMap) (k : Nat) : ChannelData :=
  (assocGet dm k).getD {}

/-- Store an owner's channel record back into the datamap. -/
def dmSet (dm : DataMap) (k : Nat) (d : ChannelData) : DataMap :=
  assocSet dm k d

/-- Python `set.add` on an insertion-ordered duplicate-free list. -/
def addTo (l : List Nat) (x : Nat) : List Nat :=
  if x ∈ l then l else l ++ [x]

/-- The producer half of the channel registration (prepare.py lines
123–124): `if symbol.producer: get_data(symbol.unit).producers.add(self)`. -/
def registerProducer (dm : DataMap) (sym : Symbol') (u : Nat) : DataMap :=
  if sym.producer then
    dmSet dm sym.unit { dmGet dm sym.unit with
      producers := addTo (dmGet dm sym.unit).producers u }
  else dm

/-- The consumer half of the channel registration (prepare.py lines
126–127): `if symbol.consumer: get_data(symbol.unit).consumers.add(self)`. -/
def registerConsumer (dm : DataMap) (sym : Symbol') (u : Nat) : DataMap :=
  if sym.consumer then
    dmSet dm sym.unit { dmGet dm sym.unit with
      consumers := addTo (dmGet dm sym.unit).consumers u }
  else dm

/-- The channel registration one referenced symbol triggers (prepare.py
lines 122–127): when the symbol carries the producer (resp. consumer) role,
the referencing unit `u` joins the producer (resp. consumer) participant set
of the channel owned by the symbol's owning unit. -/
def registerRef (dm : DataMap) (sym : Symbol') (u : Nat) : DataMap :=
  registerConsumer (registerProducer dm sym u) sym u

/-- Embeds `AbstractUnit.analyze_references` (prepare.py lines 111–127) for
the unit with index `u`: for every referenced name, look the symbol up
(`KeyError` for an undeclared name) and register `u` as a channel producer or
consumer of the symbol's owning unit when the symbol carries that role. -/
def analyzeReferences (m : SymbolMap) (u : Nat) : List String → DataMap →
    Except PrepError DataMap
  | [], dm => .ok dm
  | name :: rest, dm =>
    match lookupSym m name with
    | none => .error (.unresolvedSymbol name)
    | some sym => analyzeReferences m u rest (registerRef dm sym u)

/-- The `for unit in self.units: unit.analyze_references(...)` loop of
prepare.py lines 53–56, threading the unit index. -/
def buildDataMapAux (m : SymbolMap) : List SourceUnit → Nat → DataMap →
    Except PrepError DataMap
  | [], _, dm => .ok dm
  | u :: rest, i, dm =>
    match analyzeReferences m i u.refnames dm with
    | .error e => .error e
    | .ok dm2 => buildDataMapAux m rest (i + 1) dm2

/-- Embeds prepare.py lines 53–56: populate the channel datamap from every
unit's references. -/
def buildDataMap (units : List SourceUnit) (m : SymbolMap) : Except PrepError DataMap :=
  buildDataMapAux m units 0 []

/-- `depends.add(e)`: the dependency edge set as an insertion-ordered
duplicate-free list of `(dependent, prerequisite)` index pairs. -/
def addEdge (dep : List (Nat × Nat)) (e : Nat × Nat) : List (Nat × Nat) :=
  if e ∈ dep then dep else dep ++ [e]

/-- The direct-reference edges contributed by one unit (`for name in
unit.refnames: depends.add((unit, symbolmap[name].unit))`, prepare.py lines
61–63). -/
def addDirectEdges (m : SymbolMap) (u : Nat) : List String → List (Nat × Nat) →
    Except PrepError (List (Nat × Nat))
  | [], dep => .ok dep
  | name :: rest, dep =>
    match lookupSym m name with
    | none => .error (.unresolvedSymbol name)
    | some sym => addDirectEdges m u rest (addEdge dep (u, sym.unit))

/-- The outer loop of prepare.py lines 60–63 over all units. -/
def buildDirectEdges (m : SymbolMap) : List SourceUnit → Nat → List (Nat × Nat) →
    Except PrepError (List (Nat × Nat))
  | [], _, dep => .ok dep
  | u :: rest, i, dep =>
    match addDirectEdges m i u.refnames dep with
    | .error e => .error e
    | .ok dep2 => buildDirectEdges m rest (i + 1) dep2

/-- The channel edges of prepare.py lines 65–68: for every channel, an edge
from every consumer to every producer. -/
def addChannelEdges (dm : DataMap) (dep : List (Nat × Nat)) : List (Nat × Nat) :=
  dm.foldl (fun dep p =>
    p.2.producers.foldl (fun dep prod =>
      p.2.consumers.foldl (fun dep cons => addEdge dep (cons, prod)) dep) dep) dep

/-- Embeds prepare.py lines 58–68: the full derived edge set, direct edges
first, then channel edges. -/
def buildDepends (units : List SourceUnit) (m : SymbolMap) (dm : DataMap) :
    Except PrepError (List (Nat × Nat)) :=
  match buildDirectEdges m units 0 [] with
  | .error e => .error e
  | .ok dep => .ok (addChannelEdges dm dep)

/-- The source path of the unit with the given index (used by the cycle
diagnostics, prepare.py line 432). -/
def unitName (units : List SourceUnit) (i : Nat) : String :=
  match units[i]? with
  | some u => u.sourcename
  | none => ""

/-- Embeds `Project.process` after parsing (prepare.py lines 46–73): build the
symbol table (duplicate check), analyze references into the channel datamap
(unresolved check), derive the edge set, and schedule the unit indices with
`reverse_topological_sort`; the unit evaluations then happen in the returned
order.  Each fatal error aborts the run with the corresponding error. -/
def processUnits (units : List SourceUnit) : Except PrepError (List Nat) :=
  match buildSymbolMap units with
  | .error e => .error e
  | .ok m =>
    match buildDataMap units m with
    | .error e => .error e
    | .ok dm =>
      match buildDepends units m dm with
      | .error e => .error e
      | .ok dep =>
        match reverse_topological_sort (unitName units) (List.range units.length) dep with
        | .error msg => .error (.cyclicDependency msg)
        | .ok order => .ok order

end DataModel

section Analyzer

/-- A fragment's syntax tree, as far as `CodeBlock.analyze_symbols`
(prepare.py lines 283–311) observes it: named function and class definitions
with their name-decorators and body, identifiers in store or load context,
and generic interior structure (`seq`/`leaf` stand for any other node shapes
and `ast.iter_child_nodes` ordering). -/
inductive PyAst where
  | functionDef (name : String) (decorators : List String) (body : PyAst)
  | classDef (name : String) (decorators : List String) (body : PyAst)
  | nameStore (id : String)
  | nameLoad (id : String)
  | seq (a b : PyAst)
  | leaf
deriving DecidableEq, Repr

/-- Python's `name[0].isupper()` test of prepare.py lines 285 and 302
(identifiers are ASCII in practice). -/
def firstUpper (s : String) : Bool :=
  match s.data with
  | [] => false
  | c :: _ => c.isUpper

/-- Python `set.add` on a set of strings. -/
def addString (l : List String) (s : String) : List String :=
  if s ∈ l then l else l ++ [s]

/-- The mutable state `CodeBlock.analyze_symbols` populates: the owning
unit's `declsyms` (a set of identity-compared `Symbol'` objects — every `add`
creates a fresh object, so the list keeps one entry per declaring occurrence)
and `refnames` (a set of strings), and the block's `declnames` (a set of
strings). -/
structure SymState where
  declsyms : List Symbol'
  declnames : List String
  refnames : List String
deriving DecidableEq, Repr

/-- The decorator scan of prepare.py lines 289–295: does the declaration
carry a plain-name decorator with the given id? -/
def hasDecor (decorators : List String) (id : String) : Bool :=
  decorators.any (fun d => decide (d = id))

/-- Registration of a top-level capitalized def/class declaration
(prepare.py lines 285–298). -/
def declareDef (u : Nat) (name : String) (decorators : List String) (st : SymState) :
    SymState :=
  { st with
    declsyms := st.declsyms ++
      [⟨name, u, hasDecor decorators "producer", hasDecor decorators "consumer"⟩],
    declnames := addString st.declnames name }

/-- Decorator child nodes are visited by `ast.iter_child_nodes` as well: a
capitalized decorator name is a load-context identifier and lands in
`refnames` (prepare.py lines 307–308). -/
def visitDecorators (decorators : List String) (st : SymState) : SymState :=
  decorators.foldl
    (fun st d => if firstUpper d then { st with refnames := addString st.refnames d } else st)
    st

/-- Embeds `CodeBlock.analyze_symbols` (prepare.py lines 283–311) for the
unit with index `u`: a top-level capitalized def/class becomes a declared
symbol whose role comes from its `producer`/`consumer` decorators; any
capitalized store-context identifier becomes a plain declared symbol; any
capitalized load-context identifier becomes a referenced name; children are
visited with `toplevel` cleared below a def/class. -/
def analyzeSymbols (u : Nat) : Bool → PyAst → SymState → SymState
  | toplevel, .functionDef name decorators body, st =>
    let st1 := if toplevel && firstUpper name then declareDef u name decorators st else st
    visitDecorators decorators (analyzeSymbols u false body st1)
  | toplevel, .classDef name decorators body, st =>
    let st1 := if toplevel && firstUpper name then declareDef u name decorators st else st
    visitDecorators decorators (analyzeSymbols u false body st1)
  | _, .nameStore id, st =>
    if firstUpper id then
      { st with declsyms := st.declsyms ++ [⟨id, u, false, false⟩],
                declnames := addString st.declnames id }
    else st
  | _, .nameLoad id, st =>
    if firstUpper id then { st with refnames := addString st.refnames id } else st
  | toplevel, .seq a b, st => analyzeSymbols u toplevel b (analyzeSymbols u toplevel a st)
  | _, .leaf, st => st

/-- The number of declaring occurrences of `name` that `analyzeSymbols`
registers in the given tree: top-level capitalized def/class declarations of
that name plus capitalized store-context occurrences of it at any depth. -/
def declCount (name : String) : Bool → PyAst → Nat
  | toplevel, .functionDef n _ body =>
    (if toplevel && firstUpper n && decide (n = name) then 1 else 0) + declCount name false body
  | toplevel, .classDef n _ body =>
    (if toplevel && firstUpper n && decide (n = name) then 1 else 0) + declCount name false body
  | _, .nameStore id => if firstUpper id && decide (id = name) then 1 else 0
  | _, .nameLoad _ => 0
  | toplevel, .seq a b => declCount name toplevel a + declCount name toplevel b
  | _, .leaf => 0

end Analyzer

section AssocLemmas

variable {α β : Type} [DecidableEq α]

theorem assocGet_cons (p : α × β) (l : List (α × β)) (k : α) :
    assocGet (p :: l) k = if p.1 = k then some p.2 else assocGet l k := by
  by_cases h : p.1 = k
  · simp [assocGet, List.find?_cons_of_pos, h]
  · simp [assocGet, List.find?_cons_of_neg, h]

theorem hasKey_iff (l : List (α × β)) (k : α) :
    hasKey l k = true ↔ k ∈ l.map Prod.fst := by
  simp [hasKey, List.any_eq_true, List.mem_map]

theorem assocGet_mapSet_ne (l : List (α × β)) (k x : α) (v : β) (h : x ≠ k) :
    assocGet (l.map (fun p => if p.1 = k then (k, v) else p)) x = assocGet l x := by
  induction l with
  | nil => rfl
  | cons p rest ih =>
    by_cases hp : p.1 = k
    · rw [List.map_cons, if_pos hp, assocGet_cons, assocGet_cons]
      have h1 : ¬ ((k, v).1 = x) := fun hh => h hh.symm
      have h2 : ¬ (p.1 = x) := fun hh => h (hh.symm.trans hp)
      rw [if_neg h1, if_neg h2]
      exact ih
    · rw [List.map_cons, if_neg hp, assocGet_cons, assocGet_cons]
      by_cases hx : p.1 = x
      · rw [if_pos hx, if_pos hx]
      · rw [if_neg hx, if_neg hx]
        exact ih

theorem assocGet_mapSet (l : List (α × β)) (k x : α) (v : β) (hk : hasKey l k = true) :
    assocGet (l.map (fun p => if p.1 = k then (k, v) else p)) x =
      if x = k then some v else assocGet l x := by
  by_cases hx : x = k
  · subst hx
    rw [if_pos rfl]
    induction l with
    | nil => simp [hasKey] at hk
    | cons p rest ih =>
      by_cases hp : p.1 = x
      · rw [List.map_cons, if_pos hp, assocGet_cons, if_pos rfl]
      · rw [List.map_cons, if_neg hp, assocGet_cons, if_neg hp]
        refine ih ?_
        simp only [hasKey, List.any_cons, Bool.or_eq_true, decide_eq_true_eq] at hk
        rcases hk with hk | hk
        · exact absurd hk hp
        · exact hk
  · rw [if_neg hx]
    exact assocGet_mapSet_ne l k x v hx

theorem assocGet_assocSet (l : List (α × β)) (k x : α) (v : β) :
    assocGet (assocSet l k v) x = if x = k then some v else assocGet l x := by
  unfold assocSet
  by_cases hk : hasKey l k = true
  · rw [if_pos hk]
    exact assocGet_mapSet l k x v hk
  · rw [if_neg hk]
    have hnone : l.find? (fun p => decide (p.1 = k)) = none := by
      rw [List.find?_eq_none]
      intro q hq hdec
      exact hk (by
        simp only [hasKey, List.any_eq_true]
        exact ⟨q, hq, hdec⟩)
    by_cases hx : x = k
    · subst hx
      rw [if_pos rfl]
      simp [assocGet, List.find?_append, hnone]
    · rw [if_neg hx]
      have h2 : List.find? (fun p => decide (p.1 = x)) [(k, v)] = none := by
        rw [List.find?_eq_none]
        intro q hq
        rw [List.mem_singleton] at hq
        subst hq
        simp only [decide_eq_true_eq]
        exact fun hh => hx hh.symm
      simp [assocGet, List.find?_append, h2]

theorem assocGet_assocRemove (l : List (α × β)) (k x : α) :
    assocGet (assocRemove l k) x = if x = k then none else assocGet l x := by
  induction l with
  | nil => simp [assocRemove, assocGet]
  | cons p rest ih =>
    rw [assocRemove, List.filter_cons]
    rw [assocRemove] at ih
    by_cases hp : p.1 = k
    · rw [if_neg (by simp [hp] : ¬ ((!decide (p.1 = k)) = true))]
      rw [ih, assocGet_cons]
      by_cases hx : x = k
      · rw [if_pos hx, if_pos hx]
      · rw [if_neg hx, if_neg hx, if_neg (fun hh : p.1 = x => hx (hh.symm.trans hp))]
    · rw [if_pos (by simp [hp] : ((!decide (p.1 = k)) = true))]
      rw [assocGet_cons, assocGet_cons, ih]
      by_cases hpx : p.1 = x
      · rw [if_pos hpx, if_pos hpx, if_neg (fun hh : x = k => hp (hpx.trans hh))]
      · rw [if_neg hpx, if_neg hpx]

end AssocLemmas

section EmissionProofs

/-- C6: inside one fragment, three emission calls buffering
`("- 1", ",", newline)`, `("- 2", ",", newline)`, `("- 3", ",", newline)`
flush to exactly `- 1,\n- 2,\n- 3`: every buffered line except the last gets
its delimiter and a newline, the last gets neither (the fragment here opens
at the start of a line, so the block's indent is empty). -/
theorem C6_emission_buffering :
    (templateCodeBlockEvaluate [] "" []
      [("- 1", some ",", true), ("- 2", some ",", true), ("- 3", some ",", true)] []).2 =
    "- 1,\n- 2,\n- 3" := rfl

theorem normalizeIndent_append (s t : String) :
    normalizeIndent (s ++ t) = normalizeIndent s ++ normalizeIndent t := by
  cases s with
  | mk a =>
    cases t with
    | mk b =>
      apply String.ext
      simp [normalizeIndent, String.data_append]

/-- C7 counterexample: a fragment opened after the literal text `"a\t\t"`
(which ends in two tab characters) records the indent `" \t\t"`, not exactly
two tabs: the leading `a` is normalized to a space that stays part of the
prefix, so the second of two emitted lines is prefixed with space-tab-tab. -/
theorem C7_counterexample :
    normalizeIndent "a\t\t" ≠ "\t\t" ∧
    flushLines (normalizeIndent "a\t\t") [("x", none, true), ("y", none, true)] =
      "x\n \t\ty" := by
  refine ⟨by decide, rfl⟩

/-- C7 (amended): for a fragment opened after literal text `s ++ "\t\t"`
whose code emits two lines, the flushed output carries the first line with no
added prefix and the second line prefixed with exactly the block's recorded
indent `normalizeIndent s ++ "\t\t"` — the preceding text with every non-tab
character normalized to a space; this is exactly two tab characters precisely
when the preceding text is exactly the two tabs (`s = ""`). -/
theorem C7_reindentation (s l1 l2 : String) :
    flushLines (normalizeIndent (s ++ "\t\t")) [(l1, none, true), (l2, none, true)] =
      l1 ++ "\n" ++ ((normalizeIndent s ++ "\t\t") ++ l2) ∧
    normalizeIndent "\t\t" = "\t\t" := by
  refine ⟨?_, rfl⟩
  have hind : normalizeIndent (s ++ "\t\t") = normalizeIndent s ++ "\t\t" := by
    rw [normalizeIndent_append]
    rfl
  rw [hind]
  show (l1 ++ "\n") ++ (((normalizeIndent s ++ "\t\t") ++ l2) ++ "") = _
  rw [String.append_empty, String.append_assoc]

end EmissionProofs

section EvaluationProofs

theorem codeBlockEvaluate_frame (decl : List String) (locals : List (String × PyVal))
    (g : Env) (n : String) (h : n ∉ decl) :
    envGet (codeBlockEvaluate decl locals g) n = envGet g n := by
  induction locals generalizing g with
  | nil => rfl
  | cons p rest ih =>
    have step : codeBlockEvaluate decl (p :: rest) g =
        codeBlockEvaluate decl rest (if p.1 ∈ decl then envSet g p.1 p.2 else g) := rfl
    rw [step, ih]
    by_cases hp : p.1 ∈ decl
    · rw [if_pos hp]
      show assocGet (assocSet g p.1 p.2) n = assocGet g n
      rw [assocGet_assocSet, if_neg (fun hh : n = p.1 => h (hh ▸ hp))]
    · rw [if_neg hp]

/-- C3 counterexample: evaluating a template code block adds the internal
helper binding `_echo` to the shared environment (prepare.py line 338), even
though `_echo` is not among the unit's declared symbol names — so not every
binding added to the shared environment is named by a declared symbol. -/
theorem C3_counterexample :
    envGet (templateCodeBlockEvaluate ["X"] "" [] [] []).1 "_echo" = some PyVal.echoFn ∧
    envGet ([] : Env) "_echo" = none ∧ "_echo" ∉ (["X"] : List String) := by
  refine ⟨rfl, rfl, by decide⟩

/-- C3 (amended): every binding the copy-back loop of `CodeBlock.evaluate`
adds to the shared environment is named by one of the unit's declared symbol
names, and all other names stay out — except that `TemplateCodeBlock.evaluate`
additionally installs the internal emission helper `_echo` into the shared
environment before executing the fragment, so for template blocks the shared
environment changes only at declared names or at `_echo`. -/
theorem C3_environment_discipline (decl : List String) (indent : String)
    (locals : List (String × PyVal)) (emitted : List (String × Option String × Bool))
    (g : Env) (n : String) :
    (envGet (codeBlockEvaluate decl locals g) n ≠ envGet g n → n ∈ decl) ∧
    (envGet (templateCodeBlockEvaluate decl indent locals emitted g).1 n ≠ envGet g n →
      n ∈ decl ∨ n = "_echo") := by
  constructor
  · intro hne
    by_contra hn
    exact hne (codeBlockEvaluate_frame decl locals g n hn)
  · intro hne
    by_contra hn
    push_neg at hn
    obtain ⟨hn1, hn2⟩ := hn
    apply hne
    show envGet (codeBlockEvaluate decl locals (envSet g "_echo" PyVal.echoFn)) n = _
    rw [codeBlockEvaluate_frame decl locals _ n hn1]
    show assocGet (assocSet g "_echo" PyVal.echoFn) n = assocGet g n
    rw [assocGet_assocSet, if_neg hn2]

theorem C3_environment_discipline_witness :
    (("X" : String) ∈ ["X"] ∨ ("X" : String) = "_echo") ∧
    (("_echo" : String) ∈ ["X"] ∨ ("_echo" : String) = "_echo") := by
  constructor
  · exact (C3_environment_discipline ["X"] "" [("X", PyVal.obj 0)] [] [] "X").2 (by decide)
  · exact (C3_environment_discipline ["X"] "" [] [] [] "_echo").2 (by decide)

end EvaluationProofs

section DeploymentProofs

theorem target_ne_temp (t : String) : t ≠ t ++ ".tmp" := by
  intro h
  have hl := congrArg String.length h
  rw [String.length_append, show (".tmp" : String).length = 4 from rfl] at hl
  omega

/-- C8: deploying a template unit whose freshly generated output equals the
existing target's content leaves the target's file record (content and
stamp, i.e. identity and timestamp) untouched, removes the temporary file
and reports no change; when the content differs or the target is absent, the
freshly written temporary file takes the target's place (the rename) and a
change is reported; paths other than the target and its temporary are never
touched. -/
theorem C8_deployer (fs : FS) (target output : String) :
    (∀ old, fsLookup fs target = some old → old.content = output →
      (evaluateDeploy target output fs).2 = false ∧
      fsLookup (evaluateDeploy target output fs).1 target = some old ∧
      fsLookup (evaluateDeploy target output fs).1 (target ++ ".tmp") = none) ∧
    (∀ old, fsLookup fs target = some old → old.content ≠ output →
      (evaluateDeploy target output fs).2 = true ∧
      fsLookup (evaluateDeploy target output fs).1 target = some ⟨fs.clock, output⟩ ∧
      fsLookup (evaluateDeploy target output fs).1 (target ++ ".tmp") = none) ∧
    (fsLookup fs target = none →
      (evaluateDeploy target output fs).2 = true ∧
      fsLookup (evaluateDeploy target output fs).1 target = some ⟨fs.clock, output⟩ ∧
      fsLookup (evaluateDeploy target output fs).1 (target ++ ".tmp") = none) ∧
    (∀ p, p ≠ target → p ≠ target ++ ".tmp" →
      fsLookup (evaluateDeploy target output fs).1 p = fsLookup fs p) := by
  have hne : target ≠ target ++ ".tmp" := target_ne_temp target
  set temp := target ++ ".tmp" with htemp
  set fs1 := fsWrite fs temp output with hfs1
  have hfs1target : fsLookup fs1 target = fsLookup fs target := by
    show assocGet (assocSet fs.files temp ⟨fs.clock, output⟩) target = assocGet fs.files target
    rw [assocGet_assocSet, if_neg hne]
  have hfs1temp : fsLookup fs1 temp = some ⟨fs.clock, output⟩ := by
    show assocGet (assocSet fs.files temp ⟨fs.clock, output⟩) temp = _
    rw [assocGet_assocSet, if_pos rfl]
  have hfs1p : ∀ p, p ≠ temp → fsLookup fs1 p = fsLookup fs p := by
    intro p hp
    show assocGet (assocSet fs.files temp ⟨fs.clock, output⟩) p = assocGet fs.files p
    rw [assocGet_assocSet, if_neg hp]
  have hrun : evaluateDeploy target output fs = deploy target fs1 temp := rfl
  have hremove_lookup : ∀ p, fsLookup (fsRemove fs1 temp) p =
      if p = temp then none else fsLookup fs1 p := by
    intro p
    show assocGet (assocRemove fs1.files temp) p = _
    rw [assocGet_assocRemove]
    rfl
  have hrename_lookup : ∀ p, fsLookup (fsRename fs1 temp target) p =
      if p = target then some ⟨fs.clock, output⟩
      else if p = temp then none else fsLookup fs1 p := by
    intro p
    show fsLookup (fsRename fs1 temp target) p = _
    rw [fsRename, hfs1temp]
    show assocGet (assocSet (assocRemove fs1.files temp) target ⟨fs.clock, output⟩) p = _
    rw [assocGet_assocSet]
    by_cases hp : p = target
    · rw [if_pos hp, if_pos hp]
    · rw [if_neg hp, if_neg hp]
      show assocGet (assocRemove fs1.files temp) p = _
      rw [assocGet_assocRemove]
      rfl
  refine ⟨?_, ?_, ?_, ?_⟩
  · intro old hold hcontent
    have hchanged : deploy target fs1 temp = (fsRemove fs1 temp, false) := by
      rw [deploy, hfs1target, hold, hfs1temp]
      show (if (decide (output ≠ old.content)) = true then (fsRename fs1 temp target, true)
        else (fsRemove fs1 temp, false)) = (fsRemove fs1 temp, false)
      rw [decide_eq_false (not_not_intro hcontent.symm), if_neg Bool.false_ne_true]
    rw [hrun, hchanged]
    refine ⟨rfl, ?_, ?_⟩
    · show fsLookup (fsRemove fs1 temp) target = some old
      rw [hremove_lookup, if_neg hne, hfs1target, hold]
    · show fsLookup (fsRemove fs1 temp) temp = none
      rw [hremove_lookup, if_pos rfl]
  · intro old hold hcontent
    have hchanged : deploy target fs1 temp = (fsRename fs1 temp target, true) := by
      rw [deploy, hfs1target, hold, hfs1temp]
      show (if (decide (output ≠ old.content)) = true then (fsRename fs1 temp target, true)
        else (fsRemove fs1 temp, false)) = (fsRename fs1 temp target, true)
      rw [decide_eq_true (show output ≠ old.content from fun hh => hcontent hh.symm), if_pos rfl]
    rw [hrun, hchanged]
    refine ⟨rfl, ?_, ?_⟩
    · rw [hrename_lookup, if_pos rfl]
    · rw [hrename_lookup, if_neg (Ne.symm hne), if_pos rfl]
  · intro hold
    have hchanged : deploy target fs1 temp = (fsRename fs1 temp target, true) := by
      rw [deploy, hfs1target, hold]
      rfl
    rw [hrun, hchanged]
    refine ⟨rfl, ?_, ?_⟩
    · rw [hrename_lookup, if_pos rfl]
    · rw [hrename_lookup, if_neg (Ne.symm hne), if_pos rfl]
  · intro p hp1 hp2
    rw [hrun, deploy, hfs1target]
    cases hold : fsLookup fs target with
    | none =>
      show fsLookup (fsRename fs1 temp target) p = fsLookup fs p
      rw [hrename_lookup, if_neg hp1, if_neg hp2, hfs1p p hp2]
    | some old =>
      rw [hfs1temp]
      show fsLookup (if (decide (output ≠ old.content)) = true then
        (fsRename fs1 temp target, true) else (fsRemove fs1 temp, false)).1 p = fsLookup fs p
      by_cases hcontent : output ≠ old.content
      · rw [decide_eq_true hcontent, if_pos rfl]
        show fsLookup (fsRename fs1 temp target) p = fsLookup fs p
        rw [hrename_lookup, if_neg hp1, if_neg hp2, hfs1p p hp2]
      · rw [decide_eq_false hcontent, if_neg Bool.false_ne_true]
        show fsLookup (fsRemove fs1 temp) p = fsLookup fs p
        rw [hremove_lookup, if_neg hp2, hfs1p p hp2]

theorem C8_deployer_witness :
    ((evaluateDeploy "out" "hello" ⟨7, [("out", ⟨3, "hello"⟩)]⟩).2 = false ∧
      fsLookup (evaluateDeploy "out" "hello" ⟨7, [("out", ⟨3, "hello"⟩)]⟩).1 "out" =
        some ⟨3, "hello"⟩ ∧
      fsLookup (evaluateDeploy "out" "hello" ⟨7, [("out", ⟨3, "hello"⟩)]⟩).1 "out.tmp" = none) ∧
    ((evaluateDeploy "out" "new" ⟨7, [("out", ⟨3, "old"⟩)]⟩).2 = true ∧
      fsLookup (evaluateDeploy "out" "new" ⟨7, [("out", ⟨3, "old"⟩)]⟩).1 "out" =
        some ⟨7, "new"⟩ ∧
      fsLookup (evaluateDeploy "out" "new" ⟨7, [("out", ⟨3, "old"⟩)]⟩).1 "out.tmp" = none) := by
  constructor
  · exact (C8_deployer ⟨7, [("out", ⟨3, "hello"⟩)]⟩ "out" "hello").1 ⟨3, "hello"⟩ rfl rfl
  · exact (C8_deployer ⟨7, [("out", ⟨3, "old"⟩)]⟩ "out" "new").2.1 ⟨3, "old"⟩ rfl (by decide)

end DeploymentProofs

section SymbolTableProofs

theorem insertSymbols_append (m : SymbolMap) (l1 l2 : List Symbol') :
    insertSymbols m (l1 ++ l2) =
      match insertSymbols m l1 with
      | .error e => .error e
      | .ok m2 => insertSymbols m2 l2 := by
  induction l1 generalizing m with
  | nil => rfl
  | cons s rest ih =>
    simp only [List.cons_append, insertSymbols]
    cases h : insertSymbol m s with
    | error e => rfl
    | ok m2 => exact ih m2

theorem buildSymbolMapAux_eq_insertSymbols (units : List SourceUnit) (m : SymbolMap) :
    buildSymbolMapAux units m = insertSymbols m (units.flatMap (fun u => u.declsyms)) := by
  induction units generalizing m with
  | nil => rfl
  | cons u rest ih =>
    simp only [List.flatMap_cons, insertSymbols_append, buildSymbolMapAux]
    cases h : insertSymbols m u.declsyms with
    | error e => rfl
    | ok m2 => exact ih m2

theorem insertSymbols_error_of_dup (syms : List Symbol') :
    ∀ m : SymbolMap, (m.map Prod.fst).Nodup →
    ¬ ((m.map Prod.fst ++ syms.map Symbol'.name).Nodup) →
    ∃ n, insertSymbols m syms = .error (.duplicateSymbol n) := by
  induction syms with
  | nil =>
    intro m hm hdup
    rw [List.map_nil, List.append_nil] at hdup
    exact absurd hm hdup
  | cons s rest ih =>
    intro m hm hdup
    by_cases hk : hasKey m s.name = true
    · refine ⟨s.name, ?_⟩
      show (match insertSymbol m s with
            | Except.error e => Except.error e
            | Except.ok m2 => insertSymbols m2 rest) = _
      rw [insertSymbol, if_pos hk]
    · have hstep : insertSymbol m s = .ok (m ++ [(s.name, s)]) := by
        rw [insertSymbol, if_neg hk]
      have hkeys : (m ++ [(s.name, s)]).map Prod.fst = m.map Prod.fst ++ [s.name] := by
        simp
      have hnotmem : s.name ∉ m.map Prod.fst := fun hmem => hk ((hasKey_iff m s.name).mpr hmem)
      have hm2 : ((m ++ [(s.name, s)]).map Prod.fst).Nodup := by
        rw [hkeys, List.nodup_append]
        refine ⟨hm, List.nodup_singleton _, ?_⟩
        intro a ha hb
        rw [List.mem_singleton] at hb
        exact hnotmem (hb ▸ ha)
      have hdup2 : ¬ (((m ++ [(s.name, s)]).map Prod.fst ++ rest.map Symbol'.name).Nodup) := by
        rw [hkeys]
        intro hh
        apply hdup
        rw [List.map_cons]
        rw [show m.map Prod.fst ++ s.name :: rest.map Symbol'.name =
          (m.map Prod.fst ++ [s.name]) ++ rest.map Symbol'.name by simp]
        exact hh
      obtain ⟨n, hn⟩ := ih (m ++ [(s.name, s)]) hm2 hdup2
      refine ⟨n, ?_⟩
      show (match insertSymbol m s with
            | Except.error e => Except.error e
            | Except.ok m2 => insertSymbols m2 rest) = _
      rw [hstep]
      exact hn

theorem buildSymbolMap_error_of_dup (units : List SourceUnit)
    (hdup : ¬ ((units.flatMap (fun u => u.declsyms)).map Symbol'.name).Nodup) :
    ∃ n, buildSymbolMap units = .error (.duplicateSymbol n) := by
  rw [buildSymbolMap, buildSymbolMapAux_eq_insertSymbols]
  exact insertSymbols_error_of_dup _ [] (by simp) (by simpa using hdup)

theorem processUnits_error_of_buildSymbolMap (units : List SourceUnit) (e : PrepError)
    (h : buildSymbolMap units = .error e) : processUnits units = .error e := by
  rw [processUnits, h]

/-- C9: two distinct units declaring symbols with the same name make
processing fail with the duplicate-symbol assertion during symbol-table
aggregation — before reference analysis, edge derivation, scheduling or
evaluation are ever reached (they sit later in `processUnits`) — independent
of whether either symbol is referenced anywhere. -/
theorem C9_duplicate_symbol (units : List SourceUnit) (i j : Nat) (s1 s2 : Symbol')
    (hi : i < units.length) (hj : j < units.length) (hij : i ≠ j)
    (hs1 : s1 ∈ units[i].declsyms) (hs2 : s2 ∈ units[j].declsyms)
    (hname : s1.name = s2.name) :
    ∃ n, processUnits units = .error (.duplicateSymbol n) := by
  have hdup : ¬ ((units.flatMap (fun u => u.declsyms)).map Symbol'.name).Nodup := by
    intro hnodup
    rw [List.map_flatMap, List.nodup_flatMap] at hnodup
    obtain ⟨hall, hpair⟩ := hnodup
    rw [List.pairwise_iff_getElem] at hpair
    rcases Nat.lt_or_ge i j with hlt | hge
    · have hd := hpair i j hi hj hlt
      exact hd (List.mem_map_of_mem _ hs1)
        (show s1.name ∈ _ by rw [hname]; exact List.mem_map_of_mem _ hs2)
    · have hlt2 : j < i := Nat.lt_of_le_of_ne hge (Ne.symm hij)
      have hd := hpair j i hj hi hlt2
      exact hd (List.mem_map_of_mem _ hs2)
        (show s2.name ∈ _ by rw [← hname]; exact List.mem_map_of_mem _ hs1)
  obtain ⟨n, hn⟩ := buildSymbolMap_error_of_dup units hdup
  exact ⟨n, processUnits_error_of_buildSymbolMap units _ hn⟩

theorem C9_duplicate_symbol_witness :
    ∃ n, processUnits
      [⟨"a.py", [⟨"X", 0, false, false⟩], []⟩, ⟨"b.py", [⟨"X", 1, false, false⟩], []⟩] =
      .error (.duplicateSymbol n) :=
  C9_duplicate_symbol _ 0 1 ⟨"X", 0, false, false⟩ ⟨"X", 1, false, false⟩
    (by decide) (by decide) (by decide) (by decide) (by decide) rfl

end SymbolTableProofs

section AnalyzerProofs

theorem visitDecorators_declsyms (d : List String) (st : SymState) :
    (visitDecorators d st).declsyms = st.declsyms := by
  induction d generalizing st with
  | nil => rfl
  | cons x rest ih =>
    show (visitDecorators rest
      (if firstUpper x then { st with refnames := addString st.refnames x } else st)).declsyms = _
    rw [ih]
    by_cases h : firstUpper x = true
    · rw [if_pos h]
    · rw [if_neg h]

theorem analyzeSymbols_countP (u : Nat) (name : String) :
    ∀ (toplevel : Bool) (ast : PyAst) (st : SymState),
    ((analyzeSymbols u toplevel ast st).declsyms.countP (fun s => decide (s.name = name))) =
      st.declsyms.countP (fun s => decide (s.name = name)) + declCount name toplevel ast := by
  intro toplevel ast
  induction ast generalizing toplevel with
  | functionDef n decor body ihbody =>
    intro st
    simp only [analyzeSymbols, declCount, visitDecorators_declsyms, ihbody]
    by_cases h : (toplevel && firstUpper n) = true
    · rw [if_pos h, declareDef]
      simp only [h, Bool.true_and]
      rw [List.countP_append]
      by_cases h2 : n = name
      · simp [h2]
        omega
      · simp [h2]
    · rw [if_neg h]
      simp only [Bool.not_eq_true] at h
      simp [h]
  | classDef n decor body ihbody =>
    intro st
    simp only [analyzeSymbols, declCount, visitDecorators_declsyms, ihbody]
    by_cases h : (toplevel && firstUpper n) = true
    · rw [if_pos h, declareDef]
      simp only [h, Bool.true_and]
      rw [List.countP_append]
      by_cases h2 : n = name
      · simp [h2]
        omega
      · simp [h2]
    · rw [if_neg h]
      simp only [Bool.not_eq_true] at h
      simp [h]
  | nameStore id =>
    intro st
    simp only [analyzeSymbols, declCount]
    by_cases h : firstUpper id = true
    · rw [if_pos h]
      simp only [h, Bool.true_and]
      rw [List.countP_append]
      by_cases h2 : id = name
      · simp [h2]
      · simp [h2]
    · rw [if_neg h]
      simp [h]
  | nameLoad id =>
    intro st
    simp only [analyzeSymbols, declCount]
    by_cases h : firstUpper id = true
    · rw [if_pos h]
      simp
    · rw [if_neg h]
      simp
  | seq a b iha ihb =>
    intro st
    simp only [analyzeSymbols, declCount, iha, ihb]
    omega
  | leaf =>
    intro st
    simp [analyzeSymbols, declCount]

theorem not_nodup_names_of_two_le_countP (l : List Symbol') (name : String)
    (h : 2 ≤ l.countP (fun s => decide (s.name = name))) :
    ¬ (l.map Symbol'.name).Nodup := by
  intro hnodup
  rw [List.nodup_iff_count_le_one] at hnodup
  have hc := hnodup name
  rw [List.count_eq_countP, List.countP_map] at hc
  have heq : l.countP (fun s => s.name == name) = l.countP (fun s => decide (s.name = name)) :=
    List.countP_congr (fun s _ => by simp)
  rw [show ((fun x => x == name) ∘ Symbol'.name) = (fun s : Symbol' => s.name == name) from rfl,
    heq] at hc
  omega

/-- C10: when a single unit's fragment declares the same capitalized name at
two or more declaring occurrences (two store-context assignments, or a
top-level def/class plus an assignment), every occurrence registers a
distinct `Symbol'` entry in the unit's `declsyms`, so symbol-table
aggregation hits the duplicate-name assertion and processing fails with the
duplicate-symbol error even though only one unit declares the name. -/
theorem C10_intra_unit_duplicate (units : List SourceUnit) (i : Nat) (ast : PyAst)
    (name : String) (hi : i < units.length)
    (hdecl : units[i].declsyms = (analyzeSymbols i true ast ⟨[], [], []⟩).declsyms)
    (hcount : 2 ≤ declCount name true ast) :
    ∃ n, processUnits units = .error (.duplicateSymbol n) := by
  have hcp : 2 ≤ (units[i].declsyms).countP (fun s => decide (s.name = name)) := by
    rw [hdecl, analyzeSymbols_countP]
    simpa using hcount
  have hnames := not_nodup_names_of_two_le_countP _ name hcp
  have hdup : ¬ ((units.flatMap (fun u => u.declsyms)).map Symbol'.name).Nodup := by
    intro hfl
    rw [List.map_flatMap, List.nodup_flatMap] at hfl
    exact hnames (hfl.1 units[i] (List.getElem_mem hi))
  obtain ⟨n, hn⟩ := buildSymbolMap_error_of_dup units hdup
  exact ⟨n, processUnits_error_of_buildSymbolMap units _ hn⟩

theorem C10_intra_unit_duplicate_witness :
    ∃ n, processUnits [⟨"a.py", [⟨"X", 0, false, false⟩, ⟨"X", 0, false, false⟩], []⟩] =
      .error (.duplicateSymbol n) :=
  C10_intra_unit_duplicate _ 0 (.seq (.nameStore "X") (.nameStore "X")) "X"
    (by decide) (by decide) (by decide)

end AnalyzerProofs

section SchedulerProofs

variable {V : Type} [DecidableEq V]

theorem outDegree_cons (e : V × V) (rest : List (V × V)) (x : V) :
    outDegree (e :: rest) x = (if e.1 = x then 1 else 0) + outDegree rest x := by
  rw [outDegree, outDegree, List.filter_cons]
  by_cases h : e.1 = x
  · simp [h]
    omega
  · simp [h]

theorem processEdges_deg (es : List (V × V)) (deg : V → Int) (q : List V) (x : V) :
    (processEdges es (deg, q)).1 x = deg x - (outDegree es x : Int) := by
  induction es generalizing deg q with
  | nil =>
    show deg x = deg x - (outDegree ([] : List (V × V)) x : Int)
    simp [outDegree]
  | cons e rest ih =>
    rw [outDegree_cons]
    show (processEdges (e :: rest) (deg, q)).1 x = _
    simp only [processEdges]
    by_cases hd : deg e.1 - 1 = 0
    · rw [if_pos hd, ih]
      by_cases hx : x = e.1
      · subst hx
        simp only [if_pos rfl, if_pos rfl]
        push_cast
        omega
      · rw [if_neg hx, if_neg (fun hh : e.1 = x => hx hh.symm)]
        push_cast
        omega
    · rw [if_neg hd, ih]
      by_cases hx : x = e.1
      · subst hx
        simp only [if_pos rfl, if_pos rfl]
        push_cast
        omega
      · rw [if_neg hx, if_neg (fun hh : e.1 = x => hx hh.symm)]
        push_cast
        omega

theorem processEdges_queue (es : List (V × V)) (deg : V → Int) (q : List V) :
    ∃ pushed, (processEdges es (deg, q)).2 = q ++ pushed ∧ pushed.Nodup ∧
      (∀ x, x ∈ pushed ↔ 1 ≤ deg x ∧ deg x ≤ (outDegree es x : Int)) := by
  induction es generalizing deg q with
  | nil =>
    refine ⟨[], by simp [processEdges], List.nodup_nil, ?_⟩
    intro x
    simp only [List.not_mem_nil, false_iff, not_and, not_le]
    intro h1
    show (outDegree ([] : List (V × V)) x : Int) < deg x
    simp only [outDegree, List.filter_nil, List.length_nil, Nat.cast_zero]
    omega
  | cons e rest ih =>
    simp only [processEdges]
    by_cases hd : deg e.1 - 1 = 0
    · rw [if_pos hd]
      obtain ⟨p2, hp2, hnd2, hiff2⟩ :=
        ih (fun x => if x = e.1 then deg e.1 - 1 else deg x) (q ++ [e.1])
      refine ⟨e.1 :: p2, ?_, ?_, ?_⟩
      · rw [hp2, List.append_assoc]
        rfl
      · rw [List.nodup_cons]
        refine ⟨fun hmem => ?_, hnd2⟩
        have := (hiff2 e.1).mp hmem
        rw [if_pos rfl] at this
        omega
      · intro x
        by_cases hx : x = e.1
        · subst hx
          simp only [List.mem_cons, true_or, true_iff]
          rw [outDegree_cons, if_pos rfl]
          push_cast
          omega
        · simp only [List.mem_cons, hx, false_or]
          rw [hiff2 x, if_neg hx, outDegree_cons,
            if_neg (fun hh : e.1 = x => hx hh.symm)]
          push_cast
          omega
    · rw [if_neg hd]
      obtain ⟨p2, hp2, hnd2, hiff2⟩ :=
        ih (fun x => if x = e.1 then deg e.1 - 1 else deg x) q
      refine ⟨p2, hp2, hnd2, ?_⟩
      intro x
      by_cases hx : x = e.1
      · subst hx
        rw [hiff2 e.1, if_pos rfl, outDegree_cons, if_pos rfl]
        push_cast
        omega
      · rw [hiff2 x, if_neg hx, outDegree_cons, if_neg (fun hh : e.1 = x => hx hh.symm)]
        push_cast
        omega

theorem outDegree_inEdges (edges : List (V × V)) (v x : V) :
    outDegree (inEdges edges v) x =
      (edges.filter (fun e => decide (e.1 = x) && decide (e.2 = v))).length := by
  rw [outDegree, inEdges, List.filter_filter]

theorem doneCount_nil (edges : List (V × V)) (x : V) :
    doneCount edges ([] : List V) x = 0 := by
  rw [doneCount]
  simp

theorem length_filter_or_disjoint {γ : Type} (l : List γ) (q q1 q2 : γ → Bool)
    (hq : ∀ a ∈ l, q a = (q1 a || q2 a))
    (hdisj : ∀ a ∈ l, ¬(q1 a = true ∧ q2 a = true)) :
    (l.filter q).length = (l.filter q1).length + (l.filter q2).length := by
  induction l with
  | nil => rfl
  | cons e rest ih =>
    have hq2 : q e = (q1 e || q2 e) := hq e (List.mem_cons_self e rest)
    have hd2 := hdisj e (List.mem_cons_self e rest)
    have ihr := ih (fun a ha => hq a (List.mem_cons_of_mem e ha))
      (fun a ha => hdisj a (List.mem_cons_of_mem e ha))
    rw [List.filter_cons, List.filter_cons, List.filter_cons, hq2]
    cases h1 : q1 e with
    | true =>
      cases h2 : q2 e with
      | true => exact absurd ⟨h1, h2⟩ hd2
      | false =>
        rw [show (true || false) = true from rfl, if_pos rfl, if_pos rfl,
          if_neg (by simp : ¬ (false = true))]
        simp only [List.length_cons]
        omega
    | false =>
      cases h2 : q2 e with
      | true =>
        rw [show (false || true) = true from rfl, if_pos rfl,
          if_neg (by simp : ¬ (false = true)), if_pos rfl]
        simp only [List.length_cons]
        omega
      | false =>
        rw [show (false || false) = false from rfl, if_neg (by simp : ¬ (false = true)),
          if_neg (by simp : ¬ (false = true)), if_neg (by simp : ¬ (false = true))]
        exact ihr

theorem doneCount_snoc (edges : List (V × V)) (acc : List V) (v x : V) (hv : v ∉ acc) :
    doneCount edges (acc ++ [v]) x =
      doneCount edges acc x +
        (edges.filter (fun e => decide (e.1 = x) && decide (e.2 = v))).length := by
  rw [doneCount, doneCount]
  apply length_filter_or_disjoint
  · intro a _
    by_cases h1 : a.1 = x
    · by_cases h2 : a.2 ∈ acc
      · have h3 : a.2 ∈ acc ++ [v] := List.mem_append_left _ h2
        simp [h1, h2, h3]
      · by_cases h3 : a.2 = v
        · have h4 : a.2 ∈ acc ++ [v] := by simp [h3]
          simp [h1, h2, h3, h4]
        · have h4 : a.2 ∉ acc ++ [v] := by simp [h2, h3]
          simp [h1, h2, h3, h4]
    · simp [h1]
  · intro a _
    rintro ⟨hq1, hq2⟩
    simp only [Bool.and_eq_true, decide_eq_true_eq] at hq1 hq2
    exact hv (hq2.2 ▸ hq1.2)

theorem pair_filter_mem (edges : List (V × V)) (x v : V) (e : V × V)
    (he : e ∈ edges.filter (fun e => decide (e.1 = x) && decide (e.2 = v))) : e = (x, v) := by
  rw [List.mem_filter] at he
  obtain ⟨-, hp⟩ := he
  simp only [Bool.and_eq_true, decide_eq_true_eq] at hp
  obtain ⟨h1, h2⟩ := hp
  cases e
  simp_all

theorem pair_count_le_one (edges : List (V × V)) (hnd : edges.Nodup) (x v : V) :
    (edges.filter (fun e => decide (e.1 = x) && decide (e.2 = v))).length ≤ 1 := by
  have hnd2 : (edges.filter (fun e => decide (e.1 = x) && decide (e.2 = v))).Nodup :=
    (List.filter_sublist edges).nodup hnd
  cases hl : edges.filter (fun e => decide (e.1 = x) && decide (e.2 = v)) with
  | nil => simp
  | cons a t =>
    cases t with
    | nil => simp
    | cons b t2 =>
      exfalso
      have ha : a = (x, v) := pair_filter_mem edges x v a (by rw [hl]; simp)
      have hb : b = (x, v) := pair_filter_mem edges x v b (by rw [hl]; simp)
      rw [hl, List.nodup_cons] at hnd2
      exact hnd2.1 (by rw [ha, ← hb]; simp)

theorem pair_count_pos_iff (edges : List (V × V)) (x v : V) :
    1 ≤ (edges.filter (fun e => decide (e.1 = x) && decide (e.2 = v))).length ↔
      (x, v) ∈ edges := by
  constructor
  · intro h
    cases hl : edges.filter (fun e => decide (e.1 = x) && decide (e.2 = v)) with
    | nil => rw [hl] at h; simp at h
    | cons a t =>
      have ha : a = (x, v) := pair_filter_mem edges x v a (by rw [hl]; simp)
      have : a ∈ edges := (List.filter_sublist edges).subset (by rw [hl]; simp)
      rwa [ha] at this
  · intro h
    have : (x, v) ∈ edges.filter (fun e => decide (e.1 = x) && decide (e.2 = v)) := by
      rw [List.mem_filter]
      exact ⟨h, by simp⟩
    calc 1 ≤ 0 + 1 := by omega
    _ ≤ _ := List.length_pos_of_mem this

theorem doneCount_le_outDegree (edges : List (V × V)) (acc : List V) (x : V) :
    doneCount edges acc x ≤ outDegree edges x := by
  rw [doneCount, outDegree]
  exact (List.monotone_filter_right edges (fun e h => by
    simp only [Bool.and_eq_true] at h
    exact h.1)).length_le

theorem outDegree_pos_head (edges : List (V × V)) (x : V)
    (h : 0 < outDegree edges x) : ∃ t, (x, t) ∈ edges := by
  rw [outDegree] at h
  cases hl : edges.filter (fun e => decide (e.1 = x)) with
  | nil => rw [hl] at h; simp at h
  | cons a t =>
    have ha : a ∈ edges.filter (fun e => decide (e.1 = x)) := by rw [hl]; simp
    rw [List.mem_filter] at ha
    obtain ⟨hmem, hp⟩ := ha
    rw [decide_eq_true_eq] at hp
    exact ⟨a.2, by rw [← hp, Prod.mk.eta]; exact hmem⟩

theorem filter_and_eq_of_imp {γ : Type} (l : List γ) (p q : γ → Bool)
    (h : ∀ a ∈ l, p a = true → q a = true) :
    l.filter (fun a => p a && q a) = l.filter p := by
  apply List.filter_congr
  intro a ha
  cases hp : p a with
  | false => simp
  | true => simp [h a ha hp]

theorem tails_in_acc_of_deg_zero (edges : List (V × V)) (acc : List V) (x : V)
    (h : outDegree edges x = doneCount edges acc x) :
    ∀ e ∈ edges, e.1 = x → e.2 ∈ acc := by
  have hsub : (edges.filter (fun e => decide (e.1 = x) && decide (e.2 ∈ acc))).Sublist
      (edges.filter (fun e => decide (e.1 = x))) :=
    List.monotone_filter_right edges (fun a hh => by
      simp only [Bool.and_eq_true] at hh
      exact hh.1)
  have heq : edges.filter (fun e => decide (e.1 = x) && decide (e.2 ∈ acc)) =
      edges.filter (fun e => decide (e.1 = x)) :=
    hsub.eq_of_length (by rw [← doneCount, ← outDegree, h])
  intro e he h1
  have hmem : e ∈ edges.filter (fun e => decide (e.1 = x)) := by
    rw [List.mem_filter]
    exact ⟨he, by simp [h1]⟩
  rw [← heq, List.mem_filter] at hmem
  have h2 := hmem.2
  simp only [Bool.and_eq_true, decide_eq_true_eq] at h2
  exact h2.2

theorem exists_unprocessed_tail (edges : List (V × V)) (acc : List V) (x : V)
    (h : doneCount edges acc x ≠ outDegree edges x) :
    ∃ t, (x, t) ∈ edges ∧ t ∉ acc := by
  by_contra hno
  push_neg at hno
  apply h
  rw [doneCount, outDegree, filter_and_eq_of_imp]
  intro a ha hp
  rw [decide_eq_true_eq] at hp
  rw [decide_eq_true_eq]
  exact hno a.2 (by rw [← hp, Prod.mk.eta]; exact ha)

theorem sortInv_step (vertices : List V) (edges : List (V × V))
    (he : edges.Nodup) (hep : ∀ e ∈ edges, e.1 ∈ vertices ∧ e.2 ∈ vertices)
    (v : V) (queue : List V) (deg : V → Int) (acc : List V)
    (hinv : SortInv vertices edges (v :: queue) deg acc) :
    SortInv vertices edges (processEdges (inEdges edges v) (deg, queue)).2
      (processEdges (inEdges edges v) (deg, queue)).1 (acc ++ [v]) := by
  obtain ⟨hnd, hmem, hdeg, hq0, hacc0, hstall, hord⟩ := hinv
  have hvacc : v ∉ acc := by
    rw [List.nodup_append] at hnd
    exact fun hv2 => hnd.2.2 hv2 (List.mem_cons_self v queue)
  have hvq : v ∉ queue := by
    rw [List.nodup_append, List.nodup_cons] at hnd
    exact hnd.2.1.1
  have hdegv : deg v = 0 := hq0 v (List.mem_cons_self v queue)
  obtain ⟨pushed, hpq, hpnd, hpiff⟩ := processEdges_queue (inEdges edges v) deg queue
  have hdeg2 : ∀ x, (processEdges (inEdges edges v) (deg, queue)).1 x =
      deg x - ((edges.filter (fun e => decide (e.1 = x) && decide (e.2 = v))).length : Int) := by
    intro x
    rw [processEdges_deg, outDegree_inEdges]
  have hpiff2 : ∀ x, x ∈ pushed ↔ deg x = 1 ∧
      (edges.filter (fun e => decide (e.1 = x) && decide (e.2 = v))).length = 1 := by
    intro x
    rw [hpiff, outDegree_inEdges]
    have hle := pair_count_le_one edges he x v
    constructor
    · rintro ⟨h1, h2⟩
      omega
    · rintro ⟨h1, h2⟩
      constructor <;> omega
  have htails : ∀ x ∈ v :: queue, ∀ e ∈ edges, e.1 = x → e.2 ∈ acc := by
    intro x hx
    apply tails_in_acc_of_deg_zero
    have h0 := hq0 x hx
    have hdx := hdeg x
    omega
  have hcntq : ∀ x ∈ v :: queue,
      (edges.filter (fun e => decide (e.1 = x) && decide (e.2 = v))).length = 0 := by
    intro x hx
    by_contra hc
    have h1 : 1 ≤ (edges.filter (fun e => decide (e.1 = x) && decide (e.2 = v))).length := by
      omega
    have hmem2 := (pair_count_pos_iff edges x v).mp h1
    exact hvacc (htails x hx (x, v) hmem2 rfl)
  have hpush_not : ∀ x ∈ pushed, x ∉ acc ∧ x ∉ v :: queue := by
    intro x hx
    obtain ⟨h1, h2⟩ := (hpiff2 x).mp hx
    constructor
    · intro hxa
      have := hacc0 x hxa
      omega
    · intro hxq
      have := hq0 x hxq
      omega
  have hpush_vert : ∀ x ∈ pushed, x ∈ vertices := by
    intro x hx
    obtain ⟨h1, h2⟩ := (hpiff2 x).mp hx
    have hdx := hdeg x
    have hdone := doneCount_le_outDegree edges acc x
    have hpos : 0 < outDegree edges x := by omega
    obtain ⟨t, ht⟩ := outDegree_pos_head edges x hpos
    exact (hep (x, t) ht).1
  rw [hpq]
  refine ⟨?_, ?_, ?_, ?_, ?_, ?_, ?_⟩
  · rw [show (acc ++ [v]) ++ (queue ++ pushed) = ((acc ++ [v]) ++ queue) ++ pushed by
      simp [List.append_assoc]]
    rw [List.nodup_append]
    refine ⟨by rw [← List.append_cons]; exact hnd, hpnd, ?_⟩
    intro x hx hxp
    obtain ⟨hna, hnq⟩ := hpush_not x hxp
    rw [List.mem_append] at hx
    rcases hx with hx | hx
    · rw [List.mem_append, List.mem_singleton] at hx
      rcases hx with hx | hx
      · exact hna hx
      · exact hnq (hx ▸ List.mem_cons_self v queue)
    · exact hnq (List.mem_cons_of_mem v hx)
  · intro x hx
    rw [List.mem_append] at hx
    rcases hx with hx | hx
    · rw [List.mem_append, List.mem_singleton] at hx
      rcases hx with hx | hx
      · exact hmem x (List.mem_append_left _ hx)
      · exact hmem x (by rw [List.mem_append, hx]; exact Or.inr (List.mem_cons_self v queue))
    · rw [List.mem_append] at hx
      rcases hx with hx | hx
      · exact hmem x (by
          rw [List.mem_append]
          exact Or.inr (List.mem_cons_of_mem v hx))
      · exact hpush_vert x hx
  · intro x
    rw [hdeg2 x, doneCount_snoc edges acc v x hvacc, hdeg x]
    push_cast
    omega
  · intro x hx
    rw [List.mem_append] at hx
    rw [hdeg2 x]
    rcases hx with hx | hx
    · have h1 := hq0 x (List.mem_cons_of_mem v hx)
      have h2 := hcntq x (List.mem_cons_of_mem v hx)
      omega
    · obtain ⟨h1, h2⟩ := (hpiff2 x).mp hx
      omega
  · intro x hx
    rw [List.mem_append, List.mem_singleton] at hx
    rw [hdeg2 x]
    rcases hx with hx | hx
    · have := hacc0 x hx
      omega
    · subst hx
      have h2 := hcntq x (List.mem_cons_self x queue)
      omega
  · intro x hxv hxa hxq
    rw [List.mem_append, List.mem_singleton] at hxa
    push_neg at hxa
    rw [List.mem_append] at hxq
    push_neg at hxq
    have hst := hstall x hxv hxa.1 (by
      rw [List.mem_cons]
      push_neg
      exact ⟨hxa.2, hxq.1⟩)
    have hnp : ¬ (deg x = 1 ∧
        (edges.filter (fun e => decide (e.1 = x) && decide (e.2 = v))).length = 1) :=
      fun hh => hxq.2 ((hpiff2 x).mpr hh)
    have hle := pair_count_le_one edges he x v
    rw [hdeg2 x]
    intro hz
    exact hnp (by constructor <;> omega)
  · intro e he2 hh
    rw [List.mem_append, List.mem_singleton] at hh
    rcases hh with hh | hh
    · exact (hord e he2 hh).trans (List.sublist_append_left acc [v])
    · have htail := htails v (List.mem_cons_self v queue) e he2 hh
      rw [hh]
      show ([e.2] ++ [v]).Sublist (acc ++ [v])
      exact (List.singleton_sublist.mpr htail).append (List.Sublist.refl [v])

theorem sortInv_final (vertices : List V) (edges : List (V × V)) (deg : V → Int)
    (acc : List V) (hinv : SortInv vertices edges [] deg acc) :
    acc.Nodup ∧ (∀ x ∈ acc, x ∈ vertices) ∧
    (∀ e ∈ edges, e.1 ∈ acc → [e.2, e.1].Sublist acc) ∧
    (∀ x ∈ vertices, x ∉ acc → ∃ t, (x, t) ∈ edges ∧ t ∉ acc) := by
  obtain ⟨hnd, hmem, hdeg, hq0, hacc0, hstall, hord⟩ := hinv
  refine ⟨by simpa using hnd, fun x hx => hmem x (by simpa using hx), hord, ?_⟩
  intro x hxv hxa
  have hd := hstall x hxv hxa (List.not_mem_nil x)
  rw [hdeg x] at hd
  refine exists_unprocessed_tail edges acc x ?_
  intro heq
  rw [heq] at hd
  simp at hd

theorem sortLoop_sound (vertices : List V) (edges : List (V × V)) (hv : vertices.Nodup)
    (he : edges.Nodup) (hep : ∀ e ∈ edges, e.1 ∈ vertices ∧ e.2 ∈ vertices) :
    ∀ (fuel : Nat) (queue : List V) (deg : V → Int) (acc : List V),
      SortInv vertices edges queue deg acc →
      vertices.length ≤ fuel + acc.length →
      (sortLoop edges fuel queue deg acc).Nodup ∧
      (∀ x ∈ sortLoop edges fuel queue deg acc, x ∈ vertices) ∧
      (∀ e ∈ edges, e.1 ∈ sortLoop edges fuel queue deg acc →
        [e.2, e.1].Sublist (sortLoop edges fuel queue deg acc)) ∧
      (∀ x ∈ vertices, x ∉ sortLoop edges fuel queue deg acc →
        ∃ t, (x, t) ∈ edges ∧ t ∉ sortLoop edges fuel queue deg acc) := by
  intro fuel
  induction fuel with
  | zero =>
    intro queue deg acc hinv hfuel
    have hq : queue = [] := by
      obtain ⟨hnd, hmem, -, -, -, -, -⟩ := hinv
      have hsp : (acc ++ queue).Subperm vertices :=
        List.Nodup.subperm hnd (fun x hx => hmem x hx)
      have hlen := hsp.length_le
      rw [List.length_append] at hlen
      cases queue with
      | nil => rfl
      | cons a t =>
        exfalso
        rw [List.length_cons] at hlen
        omega
    subst hq
    exact sortInv_final vertices edges deg acc hinv
  | succ fuel ih =>
    intro queue deg acc hinv hfuel
    cases queue with
    | nil => exact sortInv_final vertices edges deg acc hinv
    | cons v rest =>
      have hstep := sortInv_step vertices edges he hep v rest deg acc hinv
      exact ih _ _ _ hstep (by
        rw [List.length_append, List.length_singleton]
        omega)

theorem sortRun_sound (vertices : List V) (edges : List (V × V)) (hv : vertices.Nodup)
    (he : edges.Nodup) (hep : ∀ e ∈ edges, e.1 ∈ vertices ∧ e.2 ∈ vertices) :
    (sortRun vertices edges).Nodup ∧
    (∀ x ∈ sortRun vertices edges, x ∈ vertices) ∧
    (∀ e ∈ edges, e.1 ∈ sortRun vertices edges →
      [e.2, e.1].Sublist (sortRun vertices edges)) ∧
    (∀ x ∈ vertices, x ∉ sortRun vertices edges →
      ∃ t, (x, t) ∈ edges ∧ t ∉ sortRun vertices edges) := by
  apply sortLoop_sound vertices edges hv he hep
  · refine ⟨?_, ?_, ?_, ?_, ?_, ?_, ?_⟩
    · rw [List.nil_append]
      exact hv.filter _
    · intro x hx
      rw [List.nil_append] at hx
      exact (List.mem_filter.mp hx).1
    · intro x
      rw [doneCount_nil]
      simp
    · intro x hx
      have h2 := (List.mem_filter.mp hx).2
      rw [decide_eq_true_eq] at h2
      show ((outDegree edges x : Nat) : Int) = 0
      rw [h2]
      rfl
    · intro x hx
      exact absurd hx (List.not_mem_nil x)
    · intro x hxv hxa hxq
      have hne : ¬ (outDegree edges x = 0) := by
        intro h0
        exact hxq (List.mem_filter.mpr ⟨hxv, by simp [h0]⟩)
      show ((outDegree edges x : Nat) : Int) ≠ 0
      intro hc
      apply hne
      omega
    · intro e he2 hh
      exact absurd hh (List.not_mem_nil e.1)
  · rw [List.length_nil]
    omega

theorem sort_ok_props (names : V → String) (vertices : List V) (edges : List (V × V))
    (hv : vertices.Nodup) (he : edges.Nodup)
    (hep : ∀ e ∈ edges, e.1 ∈ vertices ∧ e.2 ∈ vertices) (l : List V)
    (hok : reverse_topological_sort names vertices edges = .ok l) :
    l.Perm vertices ∧ ∀ e ∈ edges, [e.2, e.1].Sublist l := by
  rw [reverse_topological_sort] at hok
  by_cases hlen : (sortRun vertices edges).length ≠ vertices.length
  · rw [if_pos hlen] at hok
    cases hok
  · rw [if_neg hlen] at hok
    push_neg at hlen
    injection hok with hl
    obtain ⟨hnd, hmem, hord, -⟩ := sortRun_sound vertices edges hv he hep
    subst hl
    have hperm : (sortRun vertices edges).Perm vertices :=
      (List.Nodup.subperm hnd (fun x hx => hmem x hx)).perm_of_length_le (by omega)
    refine ⟨hperm, ?_⟩
    intro e he2
    exact hord e he2 (hperm.mem_iff.mpr (hep e he2).1)

theorem cycle_of_closed_successors (edges : List (V × V)) (S : List V) (x0 : V)
    (hx0 : x0 ∈ S) (hsucc : ∀ x ∈ S, ∃ t, t ∈ S ∧ (x, t) ∈ edges) :
    ¬ Acyclic edges := by
  intro hacyc
  classical
  have hch : ∀ x, ∃ t, x ∈ S → (t ∈ S ∧ (x, t) ∈ edges) := by
    intro x
    by_cases hx : x ∈ S
    · obtain ⟨t, ht⟩ := hsucc x hx
      exact ⟨t, fun _ => ht⟩
    · exact ⟨x0, fun h => absurd h hx⟩
  choose f hf using hch
  have hiter : ∀ n, f^[n] x0 ∈ S := by
    intro n
    induction n with
    | zero => exact hx0
    | succ n ihn =>
      rw [Function.iterate_succ_apply']
      exact (hf _ ihn).1
  have hstep : ∀ x, x ∈ S → Relation.TransGen (edgeRel edges) x (f x) := by
    intro x hx
    exact Relation.TransGen.single (hf x hx).2
  have hchain : ∀ (m : Nat) (x : V), x ∈ S → (∀ k, f^[k] x ∈ S) →
      Relation.TransGen (edgeRel edges) x (f^[m + 1] x) := by
    intro m
    induction m with
    | zero =>
      intro x hx _
      simpa using hstep x hx
    | succ m ihm =>
      intro x hx hall
      have h1 := ihm x hx hall
      have h2 : Relation.TransGen (edgeRel edges) (f^[m + 1] x) (f (f^[m + 1] x)) :=
        hstep _ (hall (m + 1))
      rw [← Function.iterate_succ_apply' f (m + 1) x] at h2
      exact h1.trans h2
  have key : ∀ i j : Nat, i < j → f^[i] x0 = f^[j] x0 → False := by
    intro i j hlt heq
    obtain ⟨d, hd⟩ : ∃ d, j = d + 1 + i := ⟨j - i - 1, by omega⟩
    have hchain2 := hchain d (f^[i] x0) (hiter i) (fun k => by
      rw [← Function.iterate_add_apply]
      exact hiter (k + i))
    rw [← Function.iterate_add_apply f (d + 1) i x0, ← hd, ← heq] at hchain2
    exact hacyc _ hchain2
  have hmaps : ∀ i ∈ Finset.range (S.length + 1), f^[i] x0 ∈ S.toFinset := by
    intro i _
    rw [List.mem_toFinset]
    exact hiter i
  have hcard : S.toFinset.card < (Finset.range (S.length + 1)).card := by
    rw [Finset.card_range]
    have := List.toFinset_card_le S
    omega
  obtain ⟨i, hi, j, hj, hij, hfij⟩ :=
    Finset.exists_ne_map_eq_of_card_lt_of_maps_to hcard hmaps
  rcases Nat.lt_or_ge i j with hlt | hge
  · exact key i j hlt hfij
  · exact key j i (by omega) hfij.symm

theorem sort_complete (names : V → String) (vertices : List V) (edges : List (V × V))
    (hv : vertices.Nodup) (he : edges.Nodup)
    (hep : ∀ e ∈ edges, e.1 ∈ vertices ∧ e.2 ∈ vertices) (hacyc : Acyclic edges) :
    ∃ l, reverse_topological_sort names vertices edges = .ok l := by
  rw [reverse_topological_sort]
  by_cases hlen : (sortRun vertices edges).length ≠ vertices.length
  · exfalso
    obtain ⟨hnd, hmem, hord, hstall⟩ := sortRun_sound vertices edges hv he hep
    have hle : (sortRun vertices edges).length ≤ vertices.length :=
      (List.Nodup.subperm hnd (fun x hx => hmem x hx)).length_le
    have hmiss : ∃ x ∈ vertices, x ∉ sortRun vertices edges := by
      by_contra hno
      push_neg at hno
      have hsp : vertices.Subperm (sortRun vertices edges) := List.Nodup.subperm hv hno
      have := hsp.length_le
      omega
    obtain ⟨x0, hx0v, hx0⟩ := hmiss
    refine cycle_of_closed_successors edges
      (vertices.filter (fun x => decide (x ∉ sortRun vertices edges))) x0 ?_ ?_ hacyc
    · rw [List.mem_filter]
      exact ⟨hx0v, by simp [hx0]⟩
    · intro x hx
      rw [List.mem_filter, decide_eq_true_eq] at hx
      obtain ⟨t, ht1, ht2⟩ := hstall x hx.1 hx.2
      refine ⟨t, ?_, ht1⟩
      rw [List.mem_filter, decide_eq_true_eq]
      exact ⟨(hep (x, t) ht1).2, ht2⟩
  · exact ⟨sortRun vertices edges, by rw [if_neg hlen]⟩

theorem acyclic_of_rank (edges : List (V × V)) (rank : V → Nat)
    (h : ∀ e ∈ edges, rank e.2 < rank e.1) : Acyclic edges := by
  intro v hcyc
  have hmono : ∀ a b : V, Relation.TransGen (edgeRel edges) a b → rank b < rank a := by
    intro a b hab
    induction hab with
    | single h1 => exact h _ h1
    | tail h1 h2 ih => exact lt_trans (h _ h2) ih
  exact lt_irrefl _ (hmono v v hcyc)

/-- C1: for every acyclic project graph (distinct vertices, a duplicate-free
edge set over them), `reverse_topological_sort` succeeds and returns a linear
order containing every unit exactly once in which, for every dependency edge
`(dependent, prerequisite)`, the prerequisite appears strictly before the
dependent. -/
theorem C1_scheduler_topological_order (names : V → String) (vertices : List V)
    (edges : List (V × V)) (hv : vertices.Nodup) (he : edges.Nodup)
    (hep : ∀ e ∈ edges, e.1 ∈ vertices ∧ e.2 ∈ vertices) (hacyc : Acyclic edges) :
    ∃ l, reverse_topological_sort names vertices edges = .ok l ∧ l.Perm vertices ∧
      ∀ e ∈ edges, [e.2, e.1].Sublist l := by
  obtain ⟨l, hok⟩ := sort_complete names vertices edges hv he hep hacyc
  obtain ⟨hperm, hord⟩ := sort_ok_props names vertices edges hv he hep l hok
  exact ⟨l, hok, hperm, hord⟩

theorem C1_scheduler_topological_order_witness :
    ∃ l, reverse_topological_sort (fun n => toString n) [0, 1, 2] [(0, 1), (1, 2)] =
        .ok l ∧ l.Perm [0, 1, 2] ∧
      ∀ e ∈ [(0, 1), (1, 2)], [e.2, e.1].Sublist l :=
  C1_scheduler_topological_order (fun n => toString n) [0, 1, 2] [(0, 1), (1, 2)]
    (by decide) (by decide) (by decide)
    (acyclic_of_rank [(0, 1), (1, 2)] (fun n => 2 - n) (by decide))

/-- C4 counterexample: a one-unit project whose only edge is the self-edge
`(0, 0)` is rejected by the scheduler with the cyclic-dependencies error
(reporting the self-loop as the cycle `u -> u`) instead of returning an order
containing the unit, so a self-edge alone does block scheduling. -/
theorem C4_counterexample :
    reverse_topological_sort (fun _ => "u") [0] [(0, 0)] =
      .error "Cyclic dependencies:\n\tu -> u" := rfl

/-- C4 (amended): self-edges are not inert.  A vertex with a self-edge keeps
a positive unresolved-prerequisite count forever (the count could only be
decremented once the vertex itself was scheduled), so any project whose edge
set contains a self-edge fails with the CyclicDependency exception — even
when the self-edge is the only edge. -/
theorem C4_self_edge_blocks (names : V → String) (vertices : List V)
    (edges : List (V × V)) (u : V) (hv : vertices.Nodup) (he : edges.Nodup)
    (hep : ∀ e ∈ edges, e.1 ∈ vertices ∧ e.2 ∈ vertices) (hu : (u, u) ∈ edges) :
    reverse_topological_sort names vertices edges =
      .error (cyclicMessage names vertices edges) := by
  have hlen : (sortRun vertices edges).length ≠ vertices.length := by
    intro hlen
    have hok : reverse_topological_sort names vertices edges = .ok (sortRun vertices edges) := by
      rw [reverse_topological_sort, if_neg (fun hne => hne hlen)]
    obtain ⟨hperm, hord⟩ := sort_ok_props names vertices edges hv he hep _ hok
    have hnd : (sortRun vertices edges).Nodup := hperm.nodup_iff.mpr hv
    have hsub := hord (u, u) hu
    have hcount := hsub.count_le u
    have hle := (List.nodup_iff_count_le_one.mp hnd) u
    have h2 : List.count u [(u, u).2, (u, u).1] = 2 := by simp
    omega
  rw [reverse_topological_sort, if_pos hlen]

theorem C4_self_edge_blocks_witness :
    reverse_topological_sort (fun _ => "u") [0] [(0, 0)] =
      .error (cyclicMessage (fun _ => "u") [0] [(0, 0)]) :=
  C4_self_edge_blocks (fun _ => "u") [0] [(0, 0)] 0
    (by decide) (by decide) (by decide) (by decide)

end SchedulerProofs

section CycleProofs

variable {V : Type} [DecidableEq V]

theorem mem_addCycle (cycles : List String) (s t : String) (h : s ∈ cycles) :
    s ∈ addCycle cycles t := by
  rw [addCycle]
  split
  · exact h
  · exact List.mem_append_left _ h

theorem mem_addCycle_self (cycles : List String) (s : String) : s ∈ addCycle cycles s := by
  rw [addCycle]
  split
  · next h => exact h
  · exact List.mem_append_right _ (List.mem_singleton.mpr rfl)

theorem findCycleIter_mono (names : V → String)
    (recurse : List V → V → List String → List String)
    (hrec : ∀ l t c s, s ∈ c → s ∈ recurse l t c) :
    ∀ (es : List (V × V)) (seen : List V) (vertex : V) (cycles : List String) (s : String),
      s ∈ cycles → s ∈ findCycleIter names recurse es seen vertex cycles := by
  intro es
  induction es with
  | nil =>
    intro seen vertex cycles s h
    exact h
  | cons e rest ih =>
    intro seen vertex cycles s h
    simp only [findCycleIter]
    split_ifs with h1 h2
    · exact ih seen vertex _ s (mem_addCycle cycles s _ h)
    · exact ih seen vertex _ s (hrec _ _ _ _ h)
    · exact ih seen vertex _ s h

theorem findCycle_mono (names : V → String) (alledges : List (V × V)) :
    ∀ (fuel : Nat) (seen : List V) (vertex : V) (cycles : List String) (s : String),
      s ∈ cycles → s ∈ findCycle names alledges fuel seen vertex cycles := by
  intro fuel
  induction fuel with
  | zero =>
    intro seen vertex cycles s h
    exact h
  | succ fuel ih =>
    intro seen vertex cycles s h
    show s ∈ findCycleIter names (fun l t c => findCycle names alledges fuel l t c)
      alledges seen vertex cycles
    exact findCycleIter_mono names _ (fun l t c s2 h2 => ih l t c s2 h2)
      alledges seen vertex cycles s h

theorem findCycleIter_adds (names : V → String)
    (recurse : List V → V → List String → List String)
    (hrec : ∀ l t c s, s ∈ c → s ∈ recurse l t c) :
    ∀ (es : List (V × V)) (seen : List V) (vertex : V) (cycles : List String) (t : V),
      (vertex, t) ∈ es → t ∈ seen →
      cyclePath names (seen ++ [t]) ∈ findCycleIter names recurse es seen vertex cycles := by
  intro es
  induction es with
  | nil =>
    intro seen vertex cycles t h hs
    exact absurd h (List.not_mem_nil _)
  | cons e rest ih =>
    intro seen vertex cycles t hmem hseen
    rw [List.mem_cons] at hmem
    simp only [findCycleIter]
    rcases hmem with heq | hmem
    · rw [← heq]
      rw [if_pos rfl, if_pos hseen]
      exact findCycleIter_mono names recurse hrec rest seen vertex _ _
        (mem_addCycle_self _ _)
    · split_ifs with h1 h2
      · exact ih seen vertex _ t hmem hseen
      · exact ih seen vertex _ t hmem hseen
      · exact ih seen vertex _ t hmem hseen

theorem findCycleIter_descend (names : V → String)
    (recurse : List V → V → List String → List String)
    (hrec : ∀ l t c s, s ∈ c → s ∈ recurse l t c)
    (target : String) (seen : List V) (vertex t : V)
    (hstep : ∀ c, target ∈ recurse (seen ++ [t]) t c) (ht : t ∉ seen) :
    ∀ (es : List (V × V)) (cycles : List String),
      (vertex, t) ∈ es → target ∈ findCycleIter names recurse es seen vertex cycles := by
  intro es
  induction es with
  | nil =>
    intro cycles h
    exact absurd h (List.not_mem_nil _)
  | cons e rest ih =>
    intro cycles hmem
    rw [List.mem_cons] at hmem
    simp only [findCycleIter]
    rcases hmem with heq | hmem
    · rw [← heq]
      rw [if_pos rfl, if_neg ht]
      exact findCycleIter_mono names recurse hrec rest seen vertex _ _ (hstep cycles)
    · split_ifs with h1 h2
      · exact ih _ hmem
      · exact ih _ hmem
      · exact ih _ hmem

theorem findCycle_two_cycle (names : V → String) (alledges : List (V × V)) (a b : V)
    (hab : b ≠ a) (h1 : (a, b) ∈ alledges) (h2 : (b, a) ∈ alledges) (fuel : Nat)
    (cycles : List String) :
    cyclePath names [a, b, a] ∈ findCycle names alledges (fuel + 2) [a] a cycles := by
  show cyclePath names [a, b, a] ∈ findCycleIter names
    (fun l t c => findCycle names alledges (fuel + 1) l t c) alledges [a] a cycles
  refine findCycleIter_descend names _
    (fun l t c s h => findCycle_mono names alledges _ l t c s h)
    (cyclePath names [a, b, a]) [a] a b ?_ (by simp [hab]) alledges cycles h1
  intro c
  show cyclePath names [a, b, a] ∈ findCycleIter names
    (fun l t c2 => findCycle names alledges fuel l t c2) alledges [a, b] b c
  exact findCycleIter_adds names _
    (fun l t c2 s h => findCycle_mono names alledges _ l t c2 s h)
    alledges [a, b] b c a h2 (by simp)

theorem foldl_preserve {γ δ : Type} (P : γ → Prop) (g : γ → δ → γ)
    (hpres : ∀ d a, P d → P (g d a)) :
    ∀ (l : List δ) (d0 : γ), P d0 → P (l.foldl g d0) := by
  intro l
  induction l with
  | nil =>
    intro d0 h
    exact h
  | cons a rest ih =>
    intro d0 h
    exact ih _ (hpres d0 a h)

theorem foldl_establish {γ δ : Type} (P : γ → Prop) (g : γ → δ → γ)
    (hpres : ∀ d a, P d → P (g d a)) (a : δ) (hadd : ∀ d, P (g d a)) :
    ∀ (l : List δ) (d0 : γ), a ∈ l → P (l.foldl g d0) := by
  intro l
  induction l with
  | nil =>
    intro d0 h
    exact absurd h (List.not_mem_nil _)
  | cons b rest ih =>
    intro d0 h
    rw [List.mem_cons] at h
    rcases h with rfl | h
    · exact foldl_preserve P g hpres rest _ (hadd d0)
    · exact ih _ h

theorem findCycles_mem (names : V → String) (vertices : List V) (edges : List (V × V))
    (a b : V) (ha : a ∈ vertices) (hab : b ≠ a) (h1 : (a, b) ∈ edges)
    (h2 : (b, a) ∈ edges) :
    cyclePath names [a, b, a] ∈ findCycles names vertices edges := by
  rw [findCycles]
  have hperm := List.perm_insertionSort (· ≤ ·)
    (vertices.foldl (fun cycles v => findCycle names edges (edges.length + 1) [v] v cycles) [])
  rw [hperm.mem_iff]
  refine foldl_establish (fun c => cyclePath names [a, b, a] ∈ c)
    (fun cycles v => findCycle names edges (edges.length + 1) [v] v cycles)
    (fun d v h => findCycle_mono names edges _ _ _ _ _ h) a ?_ vertices [] ha
  intro d
  have hlen : 1 ≤ edges.length := List.length_pos_of_mem h1
  rw [show edges.length + 1 = (edges.length - 1) + 2 by omega]
  exact findCycle_two_cycle names edges a b hab h1 h2 _ d

theorem findCycles_sorted (names : V → String) (vertices : List V)
    (edges : List (V × V)) :
    List.Sorted (· ≤ ·) (findCycles names vertices edges) :=
  List.sorted_insertionSort _ _

end CycleProofs

section PipelineProofs

theorem assocGet_append {α β : Type} [DecidableEq α] (l1 l2 : List (α × β)) (k : α) :
    assocGet (l1 ++ l2) k = (assocGet l1 k).or (assocGet l2 k) := by
  rw [assocGet, assocGet, assocGet, List.find?_append]
  cases List.find? (fun p => decide (p.1 = k)) l1 with
  | none => rfl
  | some p => rfl

theorem assocGet_none_of_hasKey_false {α β : Type} [DecidableEq α]
    (l : List (α × β)) (k : α) (h : hasKey l k = false) : assocGet l k = none := by
  rw [assocGet, List.find?_eq_none.mpr]
  · rfl
  · intro x hx hdec
    have h2 := List.any_eq_false.mp h x hx
    exact h2 hdec

theorem insertSymbols_ok_lookup (syms : List Symbol') :
    ∀ m m2, insertSymbols m syms = .ok m2 →
      (∀ n, lookupSym m n ≠ none → lookupSym m2 n = lookupSym m n) ∧
      (∀ s ∈ syms, lookupSym m2 s.name = some s) := by
  induction syms with
  | nil =>
    intro m m2 h
    injection h with h
    subst h
    exact ⟨fun n _ => rfl, fun s hs => absurd hs (List.not_mem_nil s)⟩
  | cons s rest ih =>
    intro m m2 h
    simp only [insertSymbols] at h
    cases hk : insertSymbol m s with
    | error e =>
      rw [hk] at h
      cases h
    | ok m1 =>
      rw [hk] at h
      have hkey : hasKey m s.name = false := by
        by_contra hc
        have hc2 : hasKey m s.name = true := by
          revert hc
          cases hasKey m s.name <;> simp
        rw [insertSymbol, if_pos hc2] at hk
        cases hk
      have hm1 : m1 = m ++ [(s.name, s)] := by
        rw [insertSymbol, if_neg (by rw [hkey]; simp)] at hk
        injection hk with hk
        exact hk.symm
      subst hm1
      obtain ⟨ihp, ihs⟩ := ih _ _ h
      have hpres : ∀ n, lookupSym m n ≠ none →
          lookupSym (m ++ [(s.name, s)]) n = lookupSym m n := by
        intro n hn
        rw [lookupSym, lookupSym] at *
        rw [assocGet_append]
        cases hmn : assocGet m n with
        | none => exact absurd hmn hn
        | some p => rfl
      have hlook : lookupSym (m ++ [(s.name, s)]) s.name = some s := by
        rw [lookupSym, assocGet_append, assocGet_none_of_hasKey_false m s.name hkey,
          Option.none_or]
        simp [assocGet]
      refine ⟨?_, ?_⟩
      · intro n hn
        rw [ihp n (by rw [hpres n hn]; exact hn), hpres n hn]
      · intro t ht
        rw [List.mem_cons] at ht
        rcases ht with rfl | ht
        · rw [ihp _ (by rw [hlook]; simp), hlook]
        · exact ihs t ht

theorem buildSymbolMap_ok_lookup (units : List SourceUnit) (m : SymbolMap)
    (h : buildSymbolMap units = .ok m) (i : Nat) (hi : i < units.length)
    (s : Symbol') (hs : s ∈ units[i].declsyms) :
    lookupSym m s.name = some s := by
  rw [buildSymbolMap, buildSymbolMapAux_eq_insertSymbols] at h
  refine (insertSymbols_ok_lookup _ [] m h).2 s ?_
  rw [List.mem_flatMap]
  exact ⟨units[i], List.getElem_mem hi, hs⟩

theorem insertSymbols_ok_entries (syms : List Symbol') :
    ∀ m m2, insertSymbols m syms = .ok m2 → ∀ p ∈ m2, p ∈ m ∨ p.2 ∈ syms := by
  induction syms with
  | nil =>
    intro m m2 h p hp
    injection h with h
    subst h
    exact Or.inl hp
  | cons s rest ih =>
    intro m m2 h p hp
    simp only [insertSymbols] at h
    cases hk : insertSymbol m s with
    | error e =>
      rw [hk] at h
      cases h
    | ok m1 =>
      rw [hk] at h
      have hm1 : m1 = m ++ [(s.name, s)] := by
        rw [insertSymbol] at hk
        by_cases hc : hasKey m s.name = true
        · rw [if_pos hc] at hk
          cases hk
        · rw [if_neg hc] at hk
          injection hk with hk
          exact hk.symm
      subst hm1
      rcases ih _ _ h p hp with hin | hin
      · rw [List.mem_append, List.mem_singleton] at hin
        rcases hin with hin | hin
        · exact Or.inl hin
        · exact Or.inr (by rw [hin]; exact List.mem_cons_self s rest)
      · exact Or.inr (List.mem_cons_of_mem s hin)

theorem lookupSym_unit_lt (units : List SourceUnit) (m : SymbolMap)
    (h : buildSymbolMap units = .ok m)
    (hwf : ∀ w ∈ units, ∀ s ∈ w.declsyms, s.unit < units.length)
    (name : String) (sym : Symbol') (hl : lookupSym m name = some sym) :
    sym.unit < units.length := by
  have hmem : ∃ p, p ∈ m ∧ p.2 = sym := by
    rw [lookupSym, assocGet] at hl
    cases hf : List.find? (fun p => decide (p.1 = name)) m with
    | none =>
      rw [hf] at hl
      cases hl
    | some p =>
      rw [hf] at hl
      refine ⟨p, List.mem_of_find?_eq_some hf, ?_⟩
      injection hl
  rw [buildSymbolMap, buildSymbolMapAux_eq_insertSymbols] at h
  obtain ⟨p, hp, hps⟩ := hmem
  rcases insertSymbols_ok_entries _ [] m h p hp with hin | hin
  · exact absurd hin (List.not_mem_nil p)
  · rw [List.mem_flatMap] at hin
    obtain ⟨u, hu, hpu⟩ := hin
    rw [← hps]
    exact hwf u hu p.2 hpu

theorem mem_addEdge (dep : List (Nat × Nat)) (e f : Nat × Nat) (h : f ∈ dep) :
    f ∈ addEdge dep e := by
  rw [addEdge]
  split
  · exact h
  · exact List.mem_append_left _ h

theorem mem_addEdge_self (dep : List (Nat × Nat)) (e : Nat × Nat) : e ∈ addEdge dep e := by
  rw [addEdge]
  split
  · next h => exact h
  · exact List.mem_append_right _ (List.mem_singleton.mpr rfl)

theorem addEdge_nodup (dep : List (Nat × Nat)) (e : Nat × Nat) (h : dep.Nodup) :
    (addEdge dep e).Nodup := by
  rw [addEdge]
  split
  · exact h
  · next hne =>
    rw [List.nodup_append]
    refine ⟨h, List.nodup_singleton e, ?_⟩
    intro a ha hae
    rw [List.mem_singleton] at hae
    exact hne (hae ▸ ha)

theorem addEdge_mem_bound (dep : List (Nat × Nat)) (e f : Nat × Nat) (n : Nat)
    (hdep : ∀ g ∈ dep, g.1 < n ∧ g.2 < n) (he : e.1 < n ∧ e.2 < n)
    (hf : f ∈ addEdge dep e) : f.1 < n ∧ f.2 < n := by
  rw [addEdge] at hf
  split at hf
  · exact hdep f hf
  · rw [List.mem_append, List.mem_singleton] at hf
    rcases hf with hf | hf
    · exact hdep f hf
    · rw [hf]
      exact he

theorem addDirectEdges_induct (m : SymbolMap) (u : Nat) (P : List (Nat × Nat) → Prop)
    (hstep : ∀ dep name sym, lookupSym m name = some sym →
      P dep → P (addEdge dep (u, sym.unit))) :
    ∀ (ns : List String) dep dep2, addDirectEdges m u ns dep = .ok dep2 → P dep → P dep2 := by
  intro ns
  induction ns with
  | nil =>
    intro dep dep2 h hp
    injection h with h
    exact h ▸ hp
  | cons name rest ih =>
    intro dep dep2 h hp
    simp only [addDirectEdges] at h
    cases hl : lookupSym m name with
    | none =>
      rw [hl] at h
      cases h
    | some sym =>
      rw [hl] at h
      exact ih _ _ h (hstep dep name sym hl hp)

theorem addDirectEdges_adds (m : SymbolMap) (u : Nat) :
    ∀ (ns : List String) dep dep2 name sym,
      addDirectEdges m u ns dep = .ok dep2 → name ∈ ns → lookupSym m name = some sym →
      (u, sym.unit) ∈ dep2 := by
  intro ns
  induction ns with
  | nil =>
    intro dep dep2 name sym h hmem
    exact absurd hmem (List.not_mem_nil name)
  | cons n2 rest ih =>
    intro dep dep2 name sym h hmem hl
    simp only [addDirectEdges] at h
    cases hl2 : lookupSym m n2 with
    | none =>
      rw [hl2] at h
      cases h
    | some sym2 =>
      rw [hl2] at h
      rw [List.mem_cons] at hmem
      rcases hmem with rfl | hmem
      · have hsym : sym2 = sym := by
          rw [hl] at hl2
          injection hl2 with hh
          exact hh.symm
        subst hsym
        exact addDirectEdges_induct m u (fun d => (u, sym2.unit) ∈ d)
          (fun d n3 s3 _ hp => mem_addEdge d _ _ hp) rest _ _ h
          (mem_addEdge_self dep _)
      · exact ih _ _ name sym h hmem hl

theorem buildDirectEdges_induct (m : SymbolMap) (P : List (Nat × Nat) → Prop)
    (hstep : ∀ dep u name sym, lookupSym m name = some sym →
      P dep → P (addEdge dep (u, sym.unit))) :
    ∀ (us : List SourceUnit) i dep dep2,
      buildDirectEdges m us i dep = .ok dep2 → P dep → P dep2 := by
  intro us
  induction us with
  | nil =>
    intro i dep dep2 h hp
    injection h with h
    exact h ▸ hp
  | cons u rest ih =>
    intro i dep dep2 h hp
    simp only [buildDirectEdges] at h
    cases ha : addDirectEdges m i u.refnames dep with
    | error e =>
      rw [ha] at h
      cases h
    | ok dep1 =>
      rw [ha] at h
      exact ih _ _ _ h (addDirectEdges_induct m i P (fun d n2 s2 hl hp2 =>
        hstep d i n2 s2 hl hp2) u.refnames dep dep1 ha hp)

theorem buildDirectEdges_adds (m : SymbolMap) :
    ∀ (us : List SourceUnit) (i : Nat) dep dep2 (j : Nat) (hj : j < us.length)
      (name : String) (sym : Symbol'),
      buildDirectEdges m us i dep = .ok dep2 → name ∈ us[j].refnames →
      lookupSym m name = some sym → (i + j, sym.unit) ∈ dep2 := by
  intro us
  induction us with
  | nil =>
    intro i dep dep2 j hj
    exact absurd hj (by simp)
  | cons u rest ih =>
    intro i dep dep2 j hj name sym h hmem hl
    simp only [buildDirectEdges] at h
    cases ha : addDirectEdges m i u.refnames dep with
    | error e =>
      rw [ha] at h
      cases h
    | ok dep1 =>
      rw [ha] at h
      cases j with
      | zero =>
        have h1 : (i, sym.unit) ∈ dep1 :=
          addDirectEdges_adds m i u.refnames dep dep1 name sym ha hmem hl
        have h2 : (i + 0, sym.unit) ∈ dep1 := by
          rw [Nat.add_zero]
          exact h1
        exact buildDirectEdges_induct m (fun d => (i + 0, sym.unit) ∈ d)
          (fun d u2 n2 s2 _ hp => mem_addEdge d _ _ hp) rest _ _ _ h h2
      | succ j2 =>
        have hj2 : j2 < rest.length := by
          rw [List.length_cons] at hj
          omega
        have := ih (i + 1) dep1 dep2 j2 hj2 name sym h (by
          simpa using hmem) hl
        rw [show i + 1 + j2 = i + (j2 + 1) by omega] at this
        exact this

theorem mem_addTo_self (l : List Nat) (x : Nat) : x ∈ addTo l x := by
  rw [addTo]
  split
  · next h => exact h
  · exact List.mem_append_right _ (List.mem_singleton.mpr rfl)

theorem mem_addTo_of_mem (l : List Nat) (x y : Nat) (h : y ∈ l) : y ∈ addTo l x := by
  rw [addTo]
  split
  · exact h
  · exact List.mem_append_left _ h

theorem mem_addTo_elim (l : List Nat) (x y : Nat) (h : y ∈ addTo l x) : y ∈ l ∨ y = x := by
  rw [addTo] at h
  split at h
  · exact Or.inl h
  · rw [List.mem_append, List.mem_singleton] at h
    exact h

theorem mem_assocSet {α β : Type} [DecidableEq α] (l : List (α × β)) (k : α) (v : β)
    (p : α × β) (hp : p ∈ assocSet l k v) : p = (k, v) ∨ p ∈ l := by
  rw [assocSet] at hp
  split at hp
  · rw [List.mem_map] at hp
    obtain ⟨q, hq, hqe⟩ := hp
    by_cases h : q.1 = k
    · rw [if_pos h] at hqe
      exact Or.inl hqe.symm
    · rw [if_neg h] at hqe
      exact Or.inr (hqe ▸ hq)
  · rw [List.mem_append, List.mem_singleton] at hp
    rcases hp with hp | hp
    · exact Or.inr hp
    · exact Or.inl hp

theorem dmGet_dmSet (dm : DataMap) (k k2 : Nat) (d : ChannelData) :
    dmGet (dmSet dm k d) k2 = if k2 = k then d else dmGet dm k2 := by
  rw [dmGet, dmGet, dmSet, assocGet_assocSet]
  by_cases h : k2 = k
  · rw [if_pos h, if_pos h]
    rfl
  · rw [if_neg h, if_neg h]

theorem mem_producers_entry (dm : DataMap) (k x : Nat)
    (h : x ∈ (dmGet dm k).producers) : (k, dmGet dm k) ∈ dm := by
  rw [dmGet] at h ⊢
  cases hf : assocGet dm k with
  | none =>
    rw [hf] at h
    exact absurd h (List.not_mem_nil x)
  | some d =>
    rw [hf] at h
    rw [assocGet] at hf
    cases hf2 : List.find? (fun p => decide (p.1 = k)) dm with
    | none =>
      rw [hf2] at hf
      cases hf
    | some p =>
      rw [hf2] at hf
      have hpmem := List.mem_of_find?_eq_some hf2
      have hkey : p.1 = k := by
        have := List.find?_some hf2
        rwa [decide_eq_true_eq] at this
      have hval : p.2 = d := by injection hf
      show (k, (some d).getD {}) ∈ dm
      rw [show ((some d).getD {} : ChannelData) = d from rfl, ← hkey, ← hval, Prod.mk.eta]
      exact hpmem

theorem mem_consumers_entry (dm : DataMap) (k x : Nat)
    (h : x ∈ (dmGet dm k).consumers) : (k, dmGet dm k) ∈ dm := by
  rw [dmGet] at h ⊢
  cases hf : assocGet dm k with
  | none =>
    rw [hf] at h
    exact absurd h (List.not_mem_nil x)
  | some d =>
    rw [hf] at h
    rw [assocGet] at hf
    cases hf2 : List.find? (fun p => decide (p.1 = k)) dm with
    | none =>
      rw [hf2] at hf
      cases hf
    | some p =>
      rw [hf2] at hf
      have hpmem := List.mem_of_find?_eq_some hf2
      have hkey : p.1 = k := by
        have := List.find?_some hf2
        rwa [decide_eq_true_eq] at this
      have hval : p.2 = d := by injection hf
      show (k, (some d).getD {}) ∈ dm
      rw [show ((some d).getD {} : ChannelData) = d from rfl, ← hkey, ← hval, Prod.mk.eta]
      exact hpmem

theorem registerProducer_producers_mono (dm : DataMap) (sym : Symbol') (u k x : Nat)
    (h : x ∈ (dmGet dm k).producers) :
    x ∈ (dmGet (registerProducer dm sym u) k).producers := by
  rw [registerProducer]
  split
  · rw [dmGet_dmSet]
    by_cases hk : k = sym.unit
    · rw [if_pos hk]
      show x ∈ addTo (dmGet dm sym.unit).producers u
      exact mem_addTo_of_mem _ _ _ (hk ▸ h)
    · rw [if_neg hk]
      exact h
  · exact h

theorem registerProducer_consumers_eq (dm : DataMap) (sym : Symbol') (u k : Nat) :
    (dmGet (registerProducer dm sym u) k).consumers = (dmGet dm k).consumers := by
  rw [registerProducer]
  split
  · rw [dmGet_dmSet]
    by_cases hk : k = sym.unit
    · rw [if_pos hk, hk]
    · rw [if_neg hk]
  · rfl

theorem registerConsumer_consumers_mono (dm : DataMap) (sym : Symbol') (u k x : Nat)
    (h : x ∈ (dmGet dm k).consumers) :
    x ∈ (dmGet (registerConsumer dm sym u) k).consumers := by
  rw [registerConsumer]
  split
  · rw [dmGet_dmSet]
    by_cases hk : k = sym.unit
    · rw [if_pos hk]
      show x ∈ addTo (dmGet dm sym.unit).consumers u
      exact mem_addTo_of_mem _ _ _ (hk ▸ h)
    · rw [if_neg hk]
      exact h
  · exact h

theorem registerConsumer_producers_eq (dm : DataMap) (sym : Symbol') (u k : Nat) :
    (dmGet (registerConsumer dm sym u) k).producers = (dmGet dm k).producers := by
  rw [registerConsumer]
  split
  · rw [dmGet_dmSet]
    by_cases hk : k = sym.unit
    · rw [if_pos hk, hk]
    · rw [if_neg hk]
  · rfl

theorem registerRef_producers_mono (dm : DataMap) (sym : Symbol') (u k x : Nat)
    (h : x ∈ (dmGet dm k).producers) :
    x ∈ (dmGet (registerRef dm sym u) k).producers := by
  rw [registerRef, registerConsumer_producers_eq]
  exact registerProducer_producers_mono dm sym u k x h

theorem registerRef_consumers_mono (dm : DataMap) (sym : Symbol') (u k x : Nat)
    (h : x ∈ (dmGet dm k).consumers) :
    x ∈ (dmGet (registerRef dm sym u) k).consumers := by
  rw [registerRef]
  apply registerConsumer_consumers_mono
  rw [registerProducer_consumers_eq]
  exact h

theorem registerRef_adds_producer (dm : DataMap) (sym : Symbol') (u : Nat)
    (h : sym.producer = true) : u ∈ (dmGet (registerRef dm sym u) sym.unit).producers := by
  rw [registerRef, registerConsumer_producers_eq, registerProducer, if_pos h,
    dmGet_dmSet, if_pos rfl]
  show u ∈ addTo (dmGet dm sym.unit).producers u
  exact mem_addTo_self _ _

theorem registerRef_adds_consumer (dm : DataMap) (sym : Symbol') (u : Nat)
    (h : sym.consumer = true) : u ∈ (dmGet (registerRef dm sym u) sym.unit).consumers := by
  rw [registerRef, registerConsumer, if_pos h, dmGet_dmSet, if_pos rfl]
  show u ∈ addTo (dmGet (registerProducer dm sym u) sym.unit).consumers u
  exact mem_addTo_self _ _

theorem analyzeReferences_mono (m : SymbolMap) (u : Nat) :
    ∀ (ns : List String) (dm dm2 : DataMap), analyzeReferences m u ns dm = .ok dm2 →
    ∀ (k x : Nat), (x ∈ (dmGet dm k).producers → x ∈ (dmGet dm2 k).producers) ∧
      (x ∈ (dmGet dm k).consumers → x ∈ (dmGet dm2 k).consumers) := by
  intro ns
  induction ns with
  | nil =>
    intro dm dm2 h k x
    injection h with h
    subst h
    exact ⟨id, id⟩
  | cons name rest ih =>
    intro dm dm2 h k x
    simp only [analyzeReferences] at h
    cases hl : lookupSym m name with
    | none =>
      rw [hl] at h
      cases h
    | some sym =>
      rw [hl] at h
      have h2 := ih _ _ h k x
      exact ⟨fun hx => h2.1 (registerRef_producers_mono _ _ _ _ _ hx),
        fun hx => h2.2 (registerRef_consumers_mono _ _ _ _ _ hx)⟩

theorem analyzeReferences_adds (m : SymbolMap) (u : Nat) :
    ∀ (ns : List String) (dm dm2 : DataMap) (name : String) (sym : Symbol'),
      analyzeReferences m u ns dm = .ok dm2 → name ∈ ns → lookupSym m name = some sym →
      (sym.producer = true → u ∈ (dmGet dm2 sym.unit).producers) ∧
      (sym.consumer = true → u ∈ (dmGet dm2 sym.unit).consumers) := by
  intro ns
  induction ns with
  | nil =>
    intro dm dm2 name sym h hmem
    exact absurd hmem (List.not_mem_nil name)
  | cons n2 rest ih =>
    intro dm dm2 name sym h hmem hl
    simp only [analyzeReferences] at h
    cases hl2 : lookupSym m n2 with
    | none =>
      rw [hl2] at h
      cases h
    | some sym2 =>
      rw [hl2] at h
      rw [List.mem_cons] at hmem
      rcases hmem with rfl | hmem
      · have hsym : sym2 = sym := by
          rw [hl] at hl2
          injection hl2 with hh
          exact hh.symm
        subst hsym
        have hmono := analyzeReferences_mono m u rest _ _ h
        exact ⟨fun hrole => (hmono sym2.unit u).1 (registerRef_adds_producer dm sym2 u hrole),
          fun hrole => (hmono sym2.unit u).2 (registerRef_adds_consumer dm sym2 u hrole)⟩
      · exact ih _ _ name sym h hmem hl

theorem buildDataMapAux_mono (m : SymbolMap) :
    ∀ (us : List SourceUnit) (i : Nat) (dm dm2 : DataMap),
      buildDataMapAux m us i dm = .ok dm2 →
      ∀ (k x : Nat), (x ∈ (dmGet dm k).producers → x ∈ (dmGet dm2 k).producers) ∧
        (x ∈ (dmGet dm k).consumers → x ∈ (dmGet dm2 k).consumers) := by
  intro us
  induction us with
  | nil =>
    intro i dm dm2 h k x
    injection h with h
    subst h
    exact ⟨id, id⟩
  | cons w rest ih =>
    intro i dm dm2 h k x
    simp only [buildDataMapAux] at h
    cases ha : analyzeReferences m i w.refnames dm with
    | error e =>
      rw [ha] at h
      cases h
    | ok dm1 =>
      rw [ha] at h
      have h1 := analyzeReferences_mono m i w.refnames dm dm1 ha k x
      have h2 := ih _ _ _ h k x
      exact ⟨fun hx => h2.1 (h1.1 hx), fun hx => h2.2 (h1.2 hx)⟩

theorem buildDataMapAux_adds (m : SymbolMap) :
    ∀ (us : List SourceUnit) (i : Nat) (dm dm2 : DataMap) (j : Nat) (hj : j < us.length)
      (name : String) (sym : Symbol'),
      buildDataMapAux m us i dm = .ok dm2 → name ∈ us[j].refnames →
      lookupSym m name = some sym →
      (sym.producer = true → (i + j) ∈ (dmGet dm2 sym.unit).producers) ∧
      (sym.consumer = true → (i + j) ∈ (dmGet dm2 sym.unit).consumers) := by
  intro us
  induction us with
  | nil =>
    intro i dm dm2 j hj
    exact absurd hj (by simp)
  | cons w rest ih =>
    intro i dm dm2 j hj name sym h hmem hl
    simp only [buildDataMapAux] at h
    cases ha : analyzeReferences m i w.refnames dm with
    | error e =>
      rw [ha] at h
      cases h
    | ok dm1 =>
      rw [ha] at h
      cases j with
      | zero =>
        have hadds := analyzeReferences_adds m i w.refnames dm dm1 name sym ha hmem hl
        have hmono := buildDataMapAux_mono m rest (i + 1) dm1 dm2 h
        rw [Nat.add_zero]
        exact ⟨fun hrole => (hmono sym.unit i).1 (hadds.1 hrole),
          fun hrole => (hmono sym.unit i).2 (hadds.2 hrole)⟩
      | succ j2 =>
        have hj2 : j2 < rest.length := by
          rw [List.length_cons] at hj
          omega
        have h3 := ih (i + 1) dm1 dm2 j2 hj2 name sym h (by simpa using hmem) hl
        rw [show i + (j2 + 1) = i + 1 + j2 by omega]
        exact h3

theorem foldl_preserve_mem {γ δ : Type} (P : γ → Prop) (g : γ → δ → γ) :
    ∀ (l : List δ), (∀ d, ∀ a ∈ l, P d → P (g d a)) → ∀ d0, P d0 → P (l.foldl g d0) := by
  intro l
  induction l with
  | nil =>
    intro _ d0 h
    exact h
  | cons b rest ih =>
    intro hpres d0 h
    exact ih (fun d a ha => hpres d a (List.mem_cons_of_mem b ha)) _
      (hpres d0 b (List.mem_cons_self b rest) h)

theorem mem_addChannelEdges (dm : DataMap) (dep : List (Nat × Nat)) (f : Nat × Nat)
    (h : f ∈ dep) : f ∈ addChannelEdges dm dep := by
  rw [addChannelEdges]
  refine foldl_preserve (fun d => f ∈ d) _ ?_ dm dep h
  intro d p hp
  refine foldl_preserve (fun d2 => f ∈ d2) _ ?_ p.2.producers d hp
  intro d2 prod hp2
  refine foldl_preserve (fun d3 => f ∈ d3) _ ?_ p.2.consumers d2 hp2
  intro d3 cons hp3
  exact mem_addEdge d3 _ _ hp3

theorem addChannelEdges_adds (dm : DataMap) (dep : List (Nat × Nat)) (k : Nat)
    (data : ChannelData) (hk : (k, data) ∈ dm) (prod cons : Nat)
    (hp : prod ∈ data.producers) (hc : cons ∈ data.consumers) :
    (cons, prod) ∈ addChannelEdges dm dep := by
  rw [addChannelEdges]
  refine foldl_establish (fun d => (cons, prod) ∈ d) _ ?_ (k, data) ?_ dm dep hk
  · intro d p hmem
    refine foldl_preserve (fun d2 => (cons, prod) ∈ d2) _ ?_ p.2.producers d hmem
    intro d2 prod2 hmem2
    refine foldl_preserve (fun d3 => (cons, prod) ∈ d3) _ ?_ p.2.consumers d2 hmem2
    intro d3 cons2 hmem3
    exact mem_addEdge d3 _ _ hmem3
  · intro d
    refine foldl_establish (fun d2 => (cons, prod) ∈ d2) _ ?_ prod ?_ data.producers d hp
    · intro d2 prod2 hmem2
      refine foldl_preserve (fun d3 => (cons, prod) ∈ d3) _ ?_ data.consumers d2 hmem2
      intro d3 cons2 hmem3
      exact mem_addEdge d3 _ _ hmem3
    · intro d2
      refine foldl_establish (fun d3 => (cons, prod) ∈ d3) _ ?_ cons ?_ data.consumers d2 hc
      · intro d3 cons2 hmem3
        exact mem_addEdge d3 _ _ hmem3
      · intro d3
        exact mem_addEdge_self d3 _

theorem addChannelEdges_nodup (dm : DataMap) (dep : List (Nat × Nat)) (h : dep.Nodup) :
    (addChannelEdges dm dep).Nodup := by
  rw [addChannelEdges]
  refine foldl_preserve List.Nodup _ ?_ dm dep h
  intro d p hp
  refine foldl_preserve List.Nodup _ ?_ p.2.producers d hp
  intro d2 prod hp2
  refine foldl_preserve List.Nodup _ ?_ p.2.consumers d2 hp2
  intro d3 cons hp3
  exact addEdge_nodup d3 _ hp3

theorem addChannelEdges_bounds (dm : DataMap) (dep : List (Nat × Nat)) (n : Nat)
    (hdm : ∀ p ∈ dm, (∀ x ∈ p.2.producers, x < n) ∧ (∀ x ∈ p.2.consumers, x < n))
    (hdep : ∀ f ∈ dep, f.1 < n ∧ f.2 < n) :
    ∀ f ∈ addChannelEdges dm dep, f.1 < n ∧ f.2 < n := by
  rw [addChannelEdges]
  refine foldl_preserve_mem (fun d => ∀ f ∈ d, f.1 < n ∧ f.2 < n) _ dm ?_ dep hdep
  intro d p hpmem hP
  obtain ⟨hprod, hcons⟩ := hdm p hpmem
  refine foldl_preserve_mem (fun d2 => ∀ f ∈ d2, f.1 < n ∧ f.2 < n) _ p.2.producers ?_ d hP
  intro d2 prod hprodmem hP2
  refine foldl_preserve_mem (fun d3 => ∀ f ∈ d3, f.1 < n ∧ f.2 < n) _ p.2.consumers ?_ d2 hP2
  intro d3 cons hconsmem hP3 f hf
  exact addEdge_mem_bound d3 _ f n hP3 ⟨hcons cons hconsmem, hprod prod hprodmem⟩ hf

theorem dmGet_producers_bound (dm : DataMap) (n k : Nat)
    (hdm : ∀ p ∈ dm, (∀ x ∈ p.2.producers, x < n) ∧ (∀ x ∈ p.2.consumers, x < n)) :
    ∀ x ∈ (dmGet dm k).producers, x < n := by
  intro x hx
  exact (hdm _ (mem_producers_entry dm k x hx)).1 x hx

theorem dmGet_consumers_bound (dm : DataMap) (n k : Nat)
    (hdm : ∀ p ∈ dm, (∀ x ∈ p.2.producers, x < n) ∧ (∀ x ∈ p.2.consumers, x < n)) :
    ∀ x ∈ (dmGet dm k).consumers, x < n := by
  intro x hx
  exact (hdm _ (mem_consumers_entry dm k x hx)).2 x hx

theorem registerProducer_bounds (dm : DataMap) (sym : Symbol') (u n : Nat) (hu : u < n)
    (hdm : ∀ p ∈ dm, (∀ x ∈ p.2.producers, x < n) ∧ (∀ x ∈ p.2.consumers, x < n)) :
    ∀ p ∈ registerProducer dm sym u,
      (∀ x ∈ p.2.producers, x < n) ∧ (∀ x ∈ p.2.consumers, x < n) := by
  rw [registerProducer]
  split
  · intro p hp
    rcases mem_assocSet _ _ _ p hp with rfl | hp2
    · constructor
      · intro x hx
        rcases mem_addTo_elim _ _ _ hx with hx2 | rfl
        · exact dmGet_producers_bound dm n sym.unit hdm x hx2
        · exact hu
      · intro x hx
        exact dmGet_consumers_bound dm n sym.unit hdm x hx
    · exact hdm p hp2
  · exact hdm

theorem registerConsumer_bounds (dm : DataMap) (sym : Symbol') (u n : Nat) (hu : u < n)
    (hdm : ∀ p ∈ dm, (∀ x ∈ p.2.producers, x < n) ∧ (∀ x ∈ p.2.consumers, x < n)) :
    ∀ p ∈ registerConsumer dm sym u,
      (∀ x ∈ p.2.producers, x < n) ∧ (∀ x ∈ p.2.consumers, x < n) := by
  rw [registerConsumer]
  split
  · intro p hp
    rcases mem_assocSet _ _ _ p hp with rfl | hp2
    · constructor
      · intro x hx
        exact dmGet_producers_bound dm n sym.unit hdm x hx
      · intro x hx
        rcases mem_addTo_elim _ _ _ hx with hx2 | rfl
        · exact dmGet_consumers_bound dm n sym.unit hdm x hx2
        · exact hu
    · exact hdm p hp2
  · exact hdm

theorem registerRef_bounds (dm : DataMap) (sym : Symbol') (u n : Nat) (hu : u < n)
    (hdm : ∀ p ∈ dm, (∀ x ∈ p.2.producers, x < n) ∧ (∀ x ∈ p.2.consumers, x < n)) :
    ∀ p ∈ registerRef dm sym u,
      (∀ x ∈ p.2.producers, x < n) ∧ (∀ x ∈ p.2.consumers, x < n) := by
  rw [registerRef]
  exact registerConsumer_bounds _ sym u n hu (registerProducer_bounds dm sym u n hu hdm)

theorem analyzeReferences_bounds (m : SymbolMap) (u n : Nat) (hu : u < n) :
    ∀ (ns : List String) (dm dm2 : DataMap), analyzeReferences m u ns dm = .ok dm2 →
    (∀ p ∈ dm, (∀ x ∈ p.2.producers, x < n) ∧ (∀ x ∈ p.2.consumers, x < n)) →
    (∀ p ∈ dm2, (∀ x ∈ p.2.producers, x < n) ∧ (∀ x ∈ p.2.consumers, x < n)) := by
  intro ns
  induction ns with
  | nil =>
    intro dm dm2 h hdm
    injection h with h
    exact h ▸ hdm
  | cons name rest ih =>
    intro dm dm2 h hdm
    simp only [analyzeReferences] at h
    cases hl : lookupSym m name with
    | none =>
      rw [hl] at h
      cases h
    | some sym =>
      rw [hl] at h
      exact ih _ _ h (registerRef_bounds dm sym u n hu hdm)

theorem buildDataMapAux_bounds (m : SymbolMap) (n : Nat) :
    ∀ (us : List SourceUnit) (i : Nat) (dm dm2 : DataMap),
    buildDataMapAux m us i dm = .ok dm2 → i + us.length ≤ n →
    (∀ p ∈ dm, (∀ x ∈ p.2.producers, x < n) ∧ (∀ x ∈ p.2.consumers, x < n)) →
    (∀ p ∈ dm2, (∀ x ∈ p.2.producers, x < n) ∧ (∀ x ∈ p.2.consumers, x < n)) := by
  intro us
  induction us with
  | nil =>
    intro i dm dm2 h _ hdm
    injection h with h
    exact h ▸ hdm
  | cons w rest ih =>
    intro i dm dm2 h hle hdm
    simp only [buildDataMapAux] at h
    cases ha : analyzeReferences m i w.refnames dm with
    | error e =>
      rw [ha] at h
      cases h
    | ok dm1 =>
      rw [ha] at h
      rw [List.length_cons] at hle
      refine ih (i + 1) dm1 dm2 h (by omega) ?_
      exact analyzeReferences_bounds m i n (by omega) w.refnames dm dm1 ha hdm

theorem addDirectEdges_bounds (m : SymbolMap) (u n : Nat) (hu : u < n)
    (hm : ∀ name sym, lookupSym m name = some sym → sym.unit < n) :
    ∀ (ns : List String) dep dep2, addDirectEdges m u ns dep = .ok dep2 →
    (∀ f ∈ dep, f.1 < n ∧ f.2 < n) → (∀ f ∈ dep2, f.1 < n ∧ f.2 < n) := by
  intro ns dep dep2 h hdep
  exact addDirectEdges_induct m u (fun d => ∀ f ∈ d, f.1 < n ∧ f.2 < n)
    (fun d name sym hl hp f hf => addEdge_mem_bound d _ f n hp ⟨hu, hm name sym hl⟩ hf)
    ns dep dep2 h hdep

theorem buildDirectEdges_bounds (m : SymbolMap) (n : Nat)
    (hm : ∀ name sym, lookupSym m name = some sym → sym.unit < n) :
    ∀ (us : List SourceUnit) (i : Nat) dep dep2, buildDirectEdges m us i dep = .ok dep2 →
    i + us.length ≤ n → (∀ f ∈ dep, f.1 < n ∧ f.2 < n) → (∀ f ∈ dep2, f.1 < n ∧ f.2 < n) := by
  intro us
  induction us with
  | nil =>
    intro i dep dep2 h _ hdep
    injection h with h
    exact h ▸ hdep
  | cons w rest ih =>
    intro i dep dep2 h hle hdep
    simp only [buildDirectEdges] at h
    cases ha : addDirectEdges m i w.refnames dep with
    | error e =>
      rw [ha] at h
      cases h
    | ok dep1 =>
      rw [ha] at h
      rw [List.length_cons] at hle
      refine ih (i + 1) dep1 dep2 h (by omega) ?_
      exact addDirectEdges_bounds m i n (by omega) hm w.refnames dep dep1 ha hdep

theorem buildDepends_ok_elim (units : List SourceUnit) (m : SymbolMap) (dm : DataMap)
    (dep : List (Nat × Nat)) (h : buildDepends units m dm = .ok dep) :
    ∃ dep0, buildDirectEdges m units 0 [] = .ok dep0 ∧ dep = addChannelEdges dm dep0 := by
  rw [buildDepends] at h
  cases hd : buildDirectEdges m units 0 [] with
  | error e =>
    rw [hd] at h
    cases h
  | ok dep0 =>
    rw [hd] at h
    injection h with h
    exact ⟨dep0, rfl, h.symm⟩

theorem buildDepends_nodup (units : List SourceUnit) (m : SymbolMap) (dm : DataMap)
    (dep : List (Nat × Nat)) (h : buildDepends units m dm = .ok dep) : dep.Nodup := by
  obtain ⟨dep0, h0, heq⟩ := buildDepends_ok_elim units m dm dep h
  subst heq
  exact addChannelEdges_nodup dm dep0 (buildDirectEdges_induct m List.Nodup
    (fun d u name sym _ hp => addEdge_nodup d _ hp) units 0 [] dep0 h0 List.nodup_nil)

theorem buildDepends_bounds (units : List SourceUnit) (m : SymbolMap) (dm : DataMap)
    (dep : List (Nat × Nat)) (h : buildDepends units m dm = .ok dep)
    (hm : ∀ name sym, lookupSym m name = some sym → sym.unit < units.length)
    (hdm : ∀ p ∈ dm, (∀ x ∈ p.2.producers, x < units.length) ∧
      (∀ x ∈ p.2.consumers, x < units.length)) :
    ∀ f ∈ dep, f.1 < units.length ∧ f.2 < units.length := by
  obtain ⟨dep0, h0, heq⟩ := buildDepends_ok_elim units m dm dep h
  subst heq
  refine addChannelEdges_bounds dm dep0 units.length hdm ?_
  exact buildDirectEdges_bounds m units.length hm units 0 [] dep0 h0 (by omega)
    (fun f hf => absurd hf (List.not_mem_nil f))

theorem sublist_pair_antisymm {γ : Type} (l : List γ) (hnd : l.Nodup) (x y : γ)
    (h1 : [x, y].Sublist l) (h2 : [y, x].Sublist l) : x = y := by
  induction l with
  | nil => cases h1
  | cons c t ih =>
    rw [List.nodup_cons] at hnd
    cases h1 with
    | cons _ h1t =>
      cases h2 with
      | cons _ h2t => exact ih hnd.2 h1t h2t
      | cons₂ h2t =>
        exfalso
        exact hnd.1 (h1t.subset (by simp))
    | cons₂ h1t =>
      cases h2 with
      | cons _ h2t =>
        exfalso
        exact hnd.1 (h2t.subset (by simp))
      | cons₂ h2t => rfl

theorem sort_error_of_two_cycle {V : Type} [DecidableEq V] (names : V → String)
    (vertices : List V) (edges : List (V × V)) (hv : vertices.Nodup) (he : edges.Nodup)
    (hep : ∀ e ∈ edges, e.1 ∈ vertices ∧ e.2 ∈ vertices)
    (a b : V) (hab : a ≠ b) (h1 : (a, b) ∈ edges) (h2 : (b, a) ∈ edges) :
    reverse_topological_sort names vertices edges =
      .error (cyclicMessage names vertices edges) := by
  have hlen : (sortRun vertices edges).length ≠ vertices.length := by
    intro hlen
    have hok : reverse_topological_sort names vertices edges = .ok (sortRun vertices edges) := by
      rw [reverse_topological_sort, if_neg (fun hne => hne hlen)]
    obtain ⟨hperm, hord⟩ := sort_ok_props names vertices edges hv he hep _ hok
    have hnd := hperm.nodup_iff.mpr hv
    have hs1 := hord (a, b) h1
    have hs2 := hord (b, a) h2
    exact hab (sublist_pair_antisymm _ hnd a b hs2 hs1)
  rw [reverse_topological_sort, if_pos hlen]

/-- C2: for a project containing an owner unit `u` that declares a
producer-role symbol `P` and a consumer-role symbol `Q`, a unit `x` whose
references are exactly `P` and a unit `y` whose references are exactly `Q`
(so `x` and `y` reference nothing of each other), the derived dependency edge
set contains the channel edge `(y, x)` — consumer depends on producer — and
whenever processing schedules the project, `x` is placed strictly before
`y`. -/
theorem C2_channel_ordering (units : List SourceUnit) (u x y : Nat)
    (P Q : Symbol') (m : SymbolMap) (dm : DataMap) (dep : List (Nat × Nat))
    (hu : u < units.length) (hx : x < units.length) (hy : y < units.length)
    (hPd : P ∈ units[u].declsyms) (hQd : Q ∈ units[u].declsyms)
    (hPu : P.unit = u) (hQu : Q.unit = u)
    (hProle : P.producer = true) (hQrole : Q.consumer = true)
    (hxr : units[x].refnames = [P.name]) (hyr : units[y].refnames = [Q.name])
    (hwf : ∀ w ∈ units, ∀ s ∈ w.declsyms, s.unit < units.length)
    (hm : buildSymbolMap units = .ok m) (hdm : buildDataMap units m = .ok dm)
    (hdep : buildDepends units m dm = .ok dep) :
    (y, x) ∈ dep ∧
    ∀ order, processUnits units = .ok order → [x, y].Sublist order := by
  have hlP : lookupSym m P.name = some P := buildSymbolMap_ok_lookup units m hm u hu P hPd
  have hlQ : lookupSym m Q.name = some Q := buildSymbolMap_ok_lookup units m hm u hu Q hQd
  have hxref : P.name ∈ units[x].refnames := by
    rw [hxr]
    exact List.mem_singleton.mpr rfl
  have hyref : Q.name ∈ units[y].refnames := by
    rw [hyr]
    exact List.mem_singleton.mpr rfl
  have hxprod : x ∈ (dmGet dm u).producers := by
    have := (buildDataMapAux_adds m units 0 [] dm x hx P.name P hdm hxref hlP).1 hProle
    rw [Nat.zero_add, hPu] at this
    exact this
  have hycons : y ∈ (dmGet dm u).consumers := by
    have := (buildDataMapAux_adds m units 0 [] dm y hy Q.name Q hdm hyref hlQ).2 hQrole
    rw [Nat.zero_add, hQu] at this
    exact this
  obtain ⟨dep0, hdep0, hdepeq⟩ := buildDepends_ok_elim units m dm dep hdep
  have hedge : (y, x) ∈ dep := by
    rw [hdepeq]
    exact addChannelEdges_adds dm dep0 u (dmGet dm u) (mem_producers_entry dm u x hxprod)
      x y hxprod hycons
  refine ⟨hedge, ?_⟩
  intro order hok
  simp only [processUnits, hm, hdm, hdep] at hok
  cases hsort : reverse_topological_sort (unitName units) (List.range units.length) dep with
  | error msg =>
    rw [hsort] at hok
    cases hok
  | ok l =>
    rw [hsort] at hok
    injection hok with hok
    subst hok
    have hmlookup : ∀ name sym, lookupSym m name = some sym → sym.unit < units.length :=
      fun name sym hl => lookupSym_unit_lt units m hm hwf name sym hl
    have hdmbound := buildDataMapAux_bounds m units.length units 0 [] dm hdm (by omega)
      (fun p hp => absurd hp (List.not_mem_nil p))
    have hbounds := buildDepends_bounds units m dm dep hdep hmlookup hdmbound
    have hep : ∀ e ∈ dep, e.1 ∈ List.range units.length ∧ e.2 ∈ List.range units.length := by
      intro e he2
      rw [List.mem_range, List.mem_range]
      exact hbounds e he2
    obtain ⟨-, hord⟩ := sort_ok_props (unitName units) (List.range units.length) dep
      (List.nodup_range _) (buildDepends_nodup units m dm dep hdep) hep l hsort
    exact hord (y, x) hedge

/-- C5: a project in which unit `a` references a symbol declared by unit `b`
and unit `b` references a different symbol declared by unit `a` fails with
the cyclic-dependencies error; its diagnostic is the lexicographically sorted
list of discovered cycle path strings (source paths joined by `" -> "`), and
it includes the path `a -> b -> a` passing through both units. -/
theorem C5_mutual_reference_cycle (units : List SourceUnit) (a b : Nat)
    (sA sB : Symbol') (m : SymbolMap) (dm : DataMap) (dep : List (Nat × Nat))
    (ha : a < units.length) (hb : b < units.length) (hab : a ≠ b)
    (hsB : sB ∈ units[b].declsyms) (hsBu : sB.unit = b)
    (hsA : sA ∈ units[a].declsyms) (hsAu : sA.unit = a)
    (hrefA : sB.name ∈ units[a].refnames) (hrefB : sA.name ∈ units[b].refnames)
    (hwf : ∀ w ∈ units, ∀ s ∈ w.declsyms, s.unit < units.length)
    (hm : buildSymbolMap units = .ok m) (hdm : buildDataMap units m = .ok dm)
    (hdep : buildDepends units m dm = .ok dep) :
    processUnits units = .error (.cyclicDependency
      (cyclicMessage (unitName units) (List.range units.length) dep)) ∧
    List.Sorted (· ≤ ·) (findCycles (unitName units) (List.range units.length) dep) ∧
    cyclePath (unitName units) [a, b, a] ∈
      findCycles (unitName units) (List.range units.length) dep := by
  have hlB : lookupSym m sB.name = some sB := buildSymbolMap_ok_lookup units m hm b hb sB hsB
  have hlA : lookupSym m sA.name = some sA := buildSymbolMap_ok_lookup units m hm a ha sA hsA
  obtain ⟨dep0, hdep0, hdepeq⟩ := buildDepends_ok_elim units m dm dep hdep
  have hedgeAB : (a, b) ∈ dep := by
    rw [hdepeq]
    apply mem_addChannelEdges
    have h2 := buildDirectEdges_adds m units 0 [] dep0 a ha sB.name sB hdep0 hrefA hlB
    rw [Nat.zero_add, hsBu] at h2
    exact h2
  have hedgeBA : (b, a) ∈ dep := by
    rw [hdepeq]
    apply mem_addChannelEdges
    have h2 := buildDirectEdges_adds m units 0 [] dep0 b hb sA.name sA hdep0 hrefB hlA
    rw [Nat.zero_add, hsAu] at h2
    exact h2
  have hmlookup : ∀ name sym, lookupSym m name = some sym → sym.unit < units.length :=
    fun name sym hl => lookupSym_unit_lt units m hm hwf name sym hl
  have hdmbound := buildDataMapAux_bounds m units.length units 0 [] dm hdm (by omega)
    (fun p hp => absurd hp (List.not_mem_nil p))
  have hbounds := buildDepends_bounds units m dm dep hdep hmlookup hdmbound
  have hep : ∀ e ∈ dep, e.1 ∈ List.range units.length ∧ e.2 ∈ List.range units.length := by
    intro e he2
    rw [List.mem_range, List.mem_range]
    exact hbounds e he2
  have herr := sort_error_of_two_cycle (unitName units) (List.range units.length) dep
    (List.nodup_range _) (buildDepends_nodup units m dm dep hdep) hep a b hab
    hedgeAB hedgeBA
  refine ⟨?_, findCycles_sorted _ _ _, ?_⟩
  · simp only [processUnits, hm, hdm, hdep, herr]
  · exact findCycles_mem (unitName units) _ dep a b (List.mem_range.mpr ha)
      (Ne.symm hab) hedgeAB hedgeBA

theorem C2_channel_ordering_witness :
    ((2, 1) : Nat × Nat) ∈ ([(1, 0), (2, 0), (2, 1)] : List (Nat × Nat)) ∧
    ∀ order, processUnits [⟨"owner", [⟨"P", 0, true, false⟩, ⟨"Q", 0, false, true⟩], []⟩,
      ⟨"x", [], ["P"]⟩, ⟨"y", [], ["Q"]⟩] = .ok order → [1, 2].Sublist order :=
  C2_channel_ordering
    [⟨"owner", [⟨"P", 0, true, false⟩, ⟨"Q", 0, false, true⟩], []⟩,
      ⟨"x", [], ["P"]⟩, ⟨"y", [], ["Q"]⟩]
    0 1 2 ⟨"P", 0, true, false⟩ ⟨"Q", 0, false, true⟩
    [("P", ⟨"P", 0, true, false⟩), ("Q", ⟨"Q", 0, false, true⟩)]
    [(0, ⟨[2], [1]⟩)]
    [(1, 0), (2, 0), (2, 1)]
    (by decide) (by decide) (by decide) (by decide) (by decide) rfl rfl rfl rfl
    rfl rfl (by decide) rfl rfl rfl

theorem C5_mutual_reference_cycle_witness :
    processUnits [⟨"a", [⟨"A", 0, false, false⟩], ["B"]⟩,
      ⟨"b", [⟨"B", 1, false, false⟩], ["A"]⟩] =
      .error (.cyclicDependency (cyclicMessage
        (unitName [⟨"a", [⟨"A", 0, false, false⟩], ["B"]⟩,
          ⟨"b", [⟨"B", 1, false, false⟩], ["A"]⟩])
        (List.range 2) [(0, 1), (1, 0)])) ∧
    List.Sorted (· ≤ ·) (findCycles
      (unitName [⟨"a", [⟨"A", 0, false, false⟩], ["B"]⟩,
        ⟨"b", [⟨"B", 1, false, false⟩], ["A"]⟩])
      (List.range 2) [(0, 1), (1, 0)]) ∧
    cyclePath (unitName [⟨"a", [⟨"A", 0, false, false⟩], ["B"]⟩,
      ⟨"b", [⟨"B", 1, false, false⟩], ["A"]⟩]) [0, 1, 0] ∈
      findCycles (unitName [⟨"a", [⟨"A", 0, false, false⟩], ["B"]⟩,
        ⟨"b", [⟨"B", 1, false, false⟩], ["A"]⟩]) (List.range 2) [(0, 1), (1, 0)] :=
  C5_mutual_reference_cycle
    [⟨"a", [⟨"A", 0, false, false⟩], ["B"]⟩, ⟨"b", [⟨"B", 1, false, false⟩], ["A"]⟩]
    0 1 ⟨"A", 0, false, false⟩ ⟨"B", 1, false, false⟩
    [("A", ⟨"A", 0, false, false⟩), ("B", ⟨"B", 1, false, false⟩)]
    [] [(0, 1), (1, 0)]
    (by decide) (by decide) (by decide) (by decide) rfl (by decide) rfl
    (by decide) (by decide) (by decide) rfl rfl rfl

end PipelineProofs
